import Mathlib

/-!
Shallow embedding of `src/index.ts` of `dtslint-runner`.

The two concurrent engines of the file are embedded as small-step transition
systems driven by an explicit scheduler trace, so that every interleaving the
Node.js event loop can produce is a trace of the model:

* `nAtATime` / `initArray` (the bounded-concurrency limiter): each of the `n`
  async closures made by `initArray(n, ...)` is a *lane*; its only suspension
  point is `await use(inputs[index])`, so a lane is either at the top of its
  `while` loop (`ready`), suspended on an operation for a claimed index
  (`waiting i`), or finished (`done`).  The claim-and-increment of `nextIndex`
  is synchronous JavaScript and hence a single atomic step.

* `runWithListeningChildProcesses` (the worker pool): the coordinator state is
  `inputIndex`, `processesLeft`, `rejected`, the promise, and the child
  processes; the events are the `message` / `disconnect` / `close` / `error`
  handlers registered on each child.  Tasks are identified by their index into
  `inputs` (`child.send(inputs[inputIndex])` is recorded as the index).

* the `handleOutput` callback and exit-code computation of `main`.
-/

namespace DtslintRunner

/-! ### Definitions: `nAtATime` (src/index.ts lines 183-203) -/

/-- State of one concurrency lane of `nAtATime`, i.e. one of the async closures
made by `initArray(n, ...)`: `ready` means the lane is at the top of its
`while (nextIndex !== inputs.length)` loop; `waiting i` means it has claimed
index `i` and is suspended on `await use(inputs[i])`; `done` means the loop has
exited. -/
inductive LaneSt where
  | ready
  | waiting (idx : Nat)
  | done
deriving DecidableEq, Repr

/-- State of a `nAtATime` call: the shared cursor `nextIndex`, the `results`
array (`none` models a hole of `new Array(inputs.length)`), the lanes, and a
ghost count of how many times `use` has been invoked. -/
structure NState (β : Type) where
  nextIndex : Nat
  results : List (Option β)
  lanes : List LaneSt
  invocations : Nat
deriving DecidableEq, Repr

/-- Initial state of `nAtATime n inputs use`: `results = new Array(inputs.length)`
(all holes), `nextIndex = 0`, and `initArray(n, ...)` creates exactly `n`
lanes, each at the top of its loop. -/
def nAtATimeInit (β : Type) {α : Type} (n : Nat) (inputs : List α) : NState β :=
  ⟨0, List.replicate inputs.length none, List.replicate n .ready, 0⟩

/-- One scheduler step of `nAtATime`: resume lane `l`.  A `ready` lane runs the
`while` test: if the cursor equals `inputs.length` the loop exits, otherwise it
claims `index = nextIndex`, increments the cursor (both synchronously, hence in
one atomic step) and invokes `use(inputs[index])`, suspending on the `await`.
When a `waiting i` lane is resumed its operation has completed with the value
`use(inputs[i])` (modelled by the pure `f`), which it stores at `results[i]`
before looping.  A step naming a nonexistent lane is a no-op. -/
def nAtATimeStep {α β : Type} (f : α → β) (inputs : List α) (s : NState β) (l : Nat) :
    NState β :=
  match s.lanes.get? l with
  | none => s
  | some .done => s
  | some .ready =>
    if s.nextIndex = inputs.length then
      { s with lanes := s.lanes.set l .done }
    else
      { s with lanes := s.lanes.set l (.waiting s.nextIndex),
               nextIndex := s.nextIndex + 1,
               invocations := s.invocations + 1 }
  | some (.waiting i) =>
    { s with results := s.results.set i ((inputs.get? i).map f),
             lanes := s.lanes.set l .ready }

/-- Run a scheduler trace (a list of lane indices to resume, in order). -/
def nAtATimeRun {α β : Type} (f : α → β) (inputs : List α) (s : NState β) :
    List Nat → NState β
  | [] => s
  | l :: t => nAtATimeRun f inputs (nAtATimeStep f inputs s l) t

/-- The `Promise.all` of `nAtATime` has resolved: every lane has exited. -/
def nAllDone {β : Type} (s : NState β) : Prop := ∀ l ∈ s.lanes, l = LaneSt.done

instance {β : Type} (s : NState β) : Decidable (nAllDone s) := by
  unfold nAllDone; infer_instance

/-- Number of operations currently in flight (lanes suspended on an `await`). -/
def nInFlight {β : Type} (s : NState β) : Nat :=
  s.lanes.countP fun l => match l with | .waiting _ => true | _ => false

/-- Invariant of the `nAtATime` transition system. -/
structure NInv {α β : Type} (f : α → β) (inputs : List α) (n : Nat) (s : NState β) : Prop where
  laneCount : s.lanes.length = n
  resLen : s.results.length = inputs.length
  cursorLe : s.nextIndex ≤ inputs.length
  invocEq : s.invocations = s.nextIndex
  waitLt : ∀ i, LaneSt.waiting i ∈ s.lanes → i < s.nextIndex
  resSet : ∀ i, i < s.nextIndex →
    s.results.get? i = some ((inputs.get? i).map f) ∨ LaneSt.waiting i ∈ s.lanes
  doneCursor : LaneSt.done ∈ s.lanes → s.nextIndex = inputs.length

/-- A scheduler trace that drives `nAtATime` to completion: lane 0 alone works
through the whole input (claim, complete, claim, complete, ...), then every
lane observes the exhausted cursor and exits. -/
def nSeqTrace {α : Type} (n : Nat) (inputs : List α) : List Nat :=
  List.replicate (2 * inputs.length) 0 ++ List.range n

/-! ### Definitions: `runWithListeningChildProcesses` (src/index.ts lines 205-262) -/

/-- One outcome message sent back by a worker, as consumed by `main`'s
`handleOutput`: a `path` and a `status` string, the fixed literal `"OK"`
meaning success, anything else being failing diagnostic text. -/
structure Outcome where
  path : String
  status : String
deriving DecidableEq, Repr

/-- Status of one child process: `busy t` means the task with index `t` has
been sent via `child.send` and its outcome message has not yet arrived;
`killed p` means `child.kill()` was called, `p` recording the task (if any)
that was still unanswered at the kill. -/
inductive WStatus where
  | busy (tsk : Nat)
  | killed (pending : Option Nat)
deriving DecidableEq, Repr

/-- One child process of the pool, with ghost logs of the task indices sent to
it (`child.send(inputs[i])` records `i`) and of the task indices whose outcome
messages have been delivered to `handleOutput`. -/
structure Worker where
  status : WStatus
  sent : List Nat
  recvd : List Nat
deriving DecidableEq, Repr

/-- Settlement state of the promise returned by `runWithListeningChildProcesses`.
A JavaScript promise settles at most once: later `resolve`/`reject` calls are
no-ops. -/
inductive PromiseSt where
  | pending
  | resolvedP
  | rejectedP
deriving DecidableEq, Repr

/-- State of one `runWithListeningChildProcesses` call: the shared task cursor
`inputIndex`, the `processesLeft` counter, the `rejected` flag, the promise,
the children of `allChildren`, the sequence of outcomes delivered to
`handleOutput` (task index paired with the message payload), a ghost count of
how many times `fail()` has run, and whether the `close` handler's `assert`
has failed. -/
structure PoolState where
  inputIndex : Nat
  processesLeft : Nat
  rejectedFlag : Bool
  promise : PromiseSt
  workers : List Worker
  delivered : List (Nat × Outcome)
  failCount : Nat
  assertFailed : Bool
deriving DecidableEq, Repr

/-- The task indices a worker still owes an outcome for (none once killed with
no answer outstanding). -/
def pendingOf (w : Worker) : List Nat :=
  match w.status with
  | .busy t => [t]
  | .killed (some t) => [t]
  | .killed none => []

/-- A worker that still owes an outcome (busy, or killed while busy). -/
def wActive (w : Worker) : Bool :=
  match w.status with
  | .busy _ => true
  | .killed (some _) => true
  | .killed none => false

/-- A worker currently assigned a task. -/
def wBusy (w : Worker) : Bool :=
  match w.status with
  | .busy _ => true
  | .killed _ => false

/-- A worker killed while a task was still in flight (only `fail()` does this). -/
def wKilledPending (w : Worker) : Bool :=
  match w.status with
  | .killed (some _) => true
  | _ => false

/-- `child.kill()`: a busy child dies with its task unanswered; killing an
already-killed child is a no-op. -/
def killWorker (w : Worker) : Worker :=
  match w.status with
  | .busy t => { w with status := .killed (some t) }
  | .killed _ => w

/-- The `fail()` closure (src/index.ts lines 254-260): set `rejected = true`
(unconditionally: nothing checks the flag before re-running), kill every child
in `allChildren`, and call `reject`, which settles the promise only if it is
still pending. -/
def poolFail (s : PoolState) : PoolState :=
  { s with rejectedFlag := true,
           workers := s.workers.map killWorker,
           promise := if s.promise = .pending then .rejectedP else s.promise,
           failCount := s.failCount + 1 }

/-- An event of the pool: one of the four handlers registered on child `w`
firing.  `msg` carries the outcome payload the worker sent. -/
inductive PoolEv where
  | msg (w : Nat) (out : Outcome)
  | disconnect (w : Nat)
  | close (w : Nat)
  | error (w : Nat)
deriving DecidableEq, Repr

/-- One event-handler execution of `runWithListeningChildProcesses` (the body
of the corresponding `child.on(...)` callback, run atomically on the event
loop).  `len` is `inputs.length`.

* `msg`: the handler body runs unconditionally — it never looks at the
  child's state (`handleOutput(outputMessage)`, then the cursor branch).  A
  message can arrive from a `busy` child, or from a child killed while busy
  (`killed (some t)`): `child.kill()` cannot retract an outcome the child had
  already written to the IPC channel, so that buffered outcome is still
  dispatched after the kill.  In both cases the handler delivers the outcome,
  then: if the cursor is exhausted it decrements `processesLeft`, resolves
  when that counter hits zero (a no-op on a settled promise), and calls
  `child.kill()` (a no-op on a dead child); otherwise it does
  `child.send(inputs[inputIndex]); inputIndex++`.  A send to a dead child's
  closed channel is never received — the task is recorded as sent and the
  cursor advances, but the child stays dead and that task is lost (Node
  surfaces the failed send as a later `error` event, available in the model
  as a separate `error` step).  A worker holds at most one task, so at most
  one outcome per worker can be buffered: a `killed none` child owes nothing
  and (being protocol-following) sends nothing further.
* `disconnect`: fires on any existing child whose channel closes (including
  after a kill); the handler runs `fail()` iff `inputIndex !== inputs.length`.
* `close`: the handler is `assert(rejected || inputIndex === inputs.length)`;
  a violated assertion is recorded in `assertFailed`.
* `error`: the handler is `fail` itself.

Events naming a nonexistent child are no-ops. -/
def poolStep (len : Nat) (s : PoolState) (e : PoolEv) : PoolState :=
  match e with
  | .msg wi out =>
    match s.workers.get? wi with
    | none => s
    | some w =>
      match w.status with
      | .killed none => s
      | .busy tsk =>
        if s.inputIndex = len then
          { s with delivered := s.delivered ++ [(tsk, out)],
                   processesLeft := s.processesLeft - 1,
                   promise := if s.processesLeft - 1 = 0 ∧ s.promise = .pending
                              then .resolvedP else s.promise,
                   workers := s.workers.set wi
                     { w with status := .killed none, recvd := w.recvd ++ [tsk] } }
        else
          { s with delivered := s.delivered ++ [(tsk, out)],
                   inputIndex := s.inputIndex + 1,
                   workers := s.workers.set wi
                     { w with status := .busy s.inputIndex,
                              sent := w.sent ++ [s.inputIndex],
                              recvd := w.recvd ++ [tsk] } }
      | .killed (some tsk) =>
        if s.inputIndex = len then
          { s with delivered := s.delivered ++ [(tsk, out)],
                   processesLeft := s.processesLeft - 1,
                   promise := if s.processesLeft - 1 = 0 ∧ s.promise = .pending
                              then .resolvedP else s.promise,
                   workers := s.workers.set wi
                     { w with status := .killed none, recvd := w.recvd ++ [tsk] } }
        else
          { s with delivered := s.delivered ++ [(tsk, out)],
                   inputIndex := s.inputIndex + 1,
                   workers := s.workers.set wi
                     { w with status := .killed none,
                              sent := w.sent ++ [s.inputIndex],
                              recvd := w.recvd ++ [tsk] } }
  | .disconnect wi =>
    match s.workers.get? wi with
    | none => s
    | some _ => if s.inputIndex = len then s else poolFail s
  | .close wi =>
    match s.workers.get? wi with
    | none => s
    | some _ =>
      if s.rejectedFlag = true ∨ s.inputIndex = len then s
      else { s with assertFailed := true }
  | .error wi =>
    match s.workers.get? wi with
    | none => s
    | some _ => poolFail s

/-- The synchronous `for` loop of `runWithListeningChildProcesses`, counting
down the remaining iterations: an iteration with the cursor exhausted just
decrements `processesLeft`; otherwise it forks a child, pushes it onto
`allChildren`, sends it `inputs[inputIndex]`, and increments the cursor. -/
def poolSetupLoop (len : Nat) : Nat → PoolState → PoolState
  | 0, s => s
  | r + 1, s =>
    if s.inputIndex = len then
      poolSetupLoop len r { s with processesLeft := s.processesLeft - 1 }
    else
      poolSetupLoop len r
        { s with workers := s.workers ++ [⟨.busy s.inputIndex, [s.inputIndex], []⟩],
                 inputIndex := s.inputIndex + 1 }

/-- State right after the synchronous part of `runWithListeningChildProcesses`:
`inputIndex = 0`, `processesLeft = nProcesses`, `rejected = false`, promise
pending, then the `for` loop runs `nProcesses` iterations. -/
def poolInit (len n : Nat) : PoolState :=
  poolSetupLoop len n ⟨0, n, false, .pending, [], [], 0, false⟩

/-- Run a trace of events from a given pool state. -/
def poolRunFrom (len : Nat) (s : PoolState) : List PoolEv → PoolState
  | [] => s
  | e :: t => poolRunFrom len (poolStep len s e) t

/-- Run `runWithListeningChildProcesses` on `inputs` with `nProcesses = n`
under the scheduler trace `t`. -/
def poolRun {α : Type} (inputs : List α) (n : Nat) (t : List PoolEv) : PoolState :=
  poolRunFrom inputs.length (poolInit inputs.length n) t

/-- The children created by the `for` loop when `k` of its iterations spawn:
child `i` is forked and immediately sent task `i`. -/
def spawnWorkers (k : Nat) : List Worker :=
  (List.range k).map fun i => ⟨.busy i, [i], []⟩

/-- Number of outcome messages delivered to `handleOutput` for task `i`. -/
def deliveredCount (s : PoolState) (i : Nat) : Nat :=
  (s.delivered.map Prod.fst).count i

/-- Number of workers that still owe an outcome for task `i`. -/
def pendingCount (s : PoolState) (i : Nat) : Nat :=
  s.workers.countP fun w => decide (pendingOf w = [i])

/-- Invariant of the pool transition system (`len` is `inputs.length`, `n` is
`nProcesses`).  It holds in every reachable state, faults included.  A task
past the cursor is delivered, owed by exactly one worker, or (only after a
fault, when a task was sent into a dead child's closed channel) lost — hence
the count of delivered plus owed is exactly one per dispatched task while no
fault has fired, and at most one in general. -/
structure PoolInv (len n : Nat) (s : PoolState) : Prop where
  sentSpec : ∀ w ∈ s.workers, ∃ rest, w.sent = w.recvd ++ rest ∧ rest.length ≤ 1 ∧
    (pendingOf w ≠ [] → rest = pendingOf w)
  partLe : ∀ i, deliveredCount s i + pendingCount s i ≤
    if i < s.inputIndex then 1 else 0
  partExact : s.rejectedFlag = false → ∀ i, deliveredCount s i + pendingCount s i =
    if i < s.inputIndex then 1 else 0
  resolvedExact : s.promise = .resolvedP → ∀ i, deliveredCount s i =
    if i < s.inputIndex then 1 else 0
  plGe : s.workers.countP wActive ≤ s.processesLeft
  plEq : s.rejectedFlag = false → s.processesLeft = s.workers.countP wActive
  cursorLe : s.inputIndex ≤ len
  resolvedSpec : s.promise = .resolvedP → s.processesLeft = 0 ∧ s.inputIndex = len
  plZero : 1 ≤ n → 1 ≤ len → s.processesLeft = 0 → s.promise ≠ .pending
  flagKp : s.rejectedFlag = false → ∀ w ∈ s.workers, wKilledPending w = false
  rejPromise : s.promise = .rejectedP → s.rejectedFlag = true
  flagKilled : s.rejectedFlag = true → ∀ w ∈ s.workers, wBusy w = false
  flagNotPending : s.rejectedFlag = true → s.promise ≠ .pending
  pendLt : ∀ w ∈ s.workers, ∀ t ∈ pendingOf w, t < s.inputIndex

/-! ### Definitions: outcome aggregation in `main` (src/index.ts lines 67-99) -/

/-- The `handleOutput` callback of `main`, as a fold over the outcomes it
receives: a status of exactly `"OK"` is only logged; any other status pushes
`[path, status]` onto `allFailures` verbatim. -/
def mainHandleOutput (acc : List (String × String)) (o : Outcome) :
    List (String × String) :=
  if o.status = "OK" then acc else acc ++ [(o.path, o.status)]

/-- The `allFailures` array of `main` after the pool has delivered the outcome
sequence `os`. -/
def allFailures (os : List Outcome) : List (String × String) :=
  os.foldl mainHandleOutput []

/-- Exit code returned by `main`: 0 when `allFailures` is empty, 1 otherwise. -/
def mainExitCode (os : List Outcome) : Nat :=
  if allFailures os = [] then 0 else 1

/-- Replace the outcome payload of a `msg` event with a success payload,
leaving the event otherwise unchanged (used to state that the pool's control
flow never looks at outcome payloads). -/
def eraseOutcome (e : PoolEv) : PoolEv :=
  match e with
  | .msg w _ => .msg w ⟨"", "OK"⟩
  | e => e

/-- Replace every delivered payload with the success payload. -/
def eraseDelivered (s : PoolState) : PoolState :=
  { s with delivered := s.delivered.map fun p => (p.1, ⟨"", "OK"⟩) }

/-! ### List helper lemmas -/

theorem list_get_decomp {γ : Type} {x : γ} :
    ∀ (l : List γ) (i : Nat), l.get? i = some x → l.take i ++ x :: l.drop (i + 1) = l := by
  intro l
  induction l with
  | nil => intro i h; cases i <;> exact Option.noConfusion h
  | cons a t ih =>
    intro i h
    cases i with
    | zero =>
      injection h with h1
      subst h1
      rfl
    | succ j =>
      show a :: (t.take j ++ x :: t.drop (j + 1)) = a :: t
      rw [ih j h]

theorem list_set_decomp {γ : Type} {x : γ} :
    ∀ (l : List γ) (i : Nat) (a : γ), l.get? i = some x →
      l.set i a = l.take i ++ a :: l.drop (i + 1) := by
  intro l
  induction l with
  | nil => intro i a h; cases i <;> exact Option.noConfusion h
  | cons b t ih =>
    intro i a h
    cases i with
    | zero => rfl
    | succ j =>
      show b :: t.set j a = b :: (t.take j ++ a :: t.drop (j + 1))
      rw [ih j a h]

theorem list_get_set_self {γ : Type} {x a : γ} :
    ∀ {l : List γ} {i : Nat}, l.get? i = some x → (l.set i a).get? i = some a := by
  intro l
  induction l with
  | nil => intro i h; cases i <;> exact Option.noConfusion h
  | cons b t ih =>
    intro i h
    cases i with
    | zero => rfl
    | succ j => exact ih h

theorem list_get_set_ne {γ : Type} (a : γ) :
    ∀ (l : List γ) {i j : Nat}, i ≠ j → (l.set i a).get? j = l.get? j := by
  intro l
  induction l with
  | nil => intro i j _; rfl
  | cons b t ih =>
    intro i j hne
    cases i with
    | zero =>
      cases j with
      | zero => exact absurd rfl hne
      | succ j' => rfl
    | succ i' =>
      cases j with
      | zero => rfl
      | succ j' => exact ih (fun h => hne (congrArg Nat.succ h))

theorem list_mem_set_self {γ : Type} {x : γ} {l : List γ} {i : Nat} (a : γ)
    (h : l.get? i = some x) : a ∈ l.set i a := by
  rw [list_set_decomp l i a h]
  exact List.mem_append_right _ (List.mem_cons_self a _)

theorem list_mem_set_of_ne {γ : Type} {x y : γ} {l : List γ} {i : Nat} {a : γ}
    (hmem : y ∈ l) (hget : l.get? i = some x) (hne : y ≠ x) : y ∈ l.set i a := by
  have hdec := list_get_decomp l i hget
  rw [list_set_decomp l i a hget]
  rw [← hdec] at hmem
  rcases List.mem_append.1 hmem with h1 | h2
  · exact List.mem_append_left _ h1
  · rcases List.mem_cons.1 h2 with h3 | h4
    · exact absurd h3 hne
    · exact List.mem_append_right _ (List.mem_cons_of_mem _ h4)

theorem list_countP_set {γ : Type} (p : γ → Bool) (l : List γ) (i : Nat) (x a : γ)
    (h : l.get? i = some x) :
    (l.set i a).countP p + (if p x then 1 else 0) = l.countP p + (if p a then 1 else 0) := by
  rw [list_set_decomp l i a h]
  conv_rhs => rw [← list_get_decomp l i h]
  simp only [List.countP_append, List.countP_cons]
  by_cases hx : p x <;> by_cases ha : p a <;> simp [hx, ha] <;> omega

/-! ### Theorems: `nAtATime` invariants -/

theorem nAtATimeRun_append {α β : Type} (f : α → β) (inputs : List α) (s : NState β)
    (t₁ t₂ : List Nat) :
    nAtATimeRun f inputs s (t₁ ++ t₂) = nAtATimeRun f inputs (nAtATimeRun f inputs s t₁) t₂ := by
  induction t₁ generalizing s with
  | nil => rfl
  | cons l t ih => simp [nAtATimeRun, ih]

theorem nInv_init {α β : Type} (f : α → β) (inputs : List α) (n : Nat) :
    NInv f inputs n (nAtATimeInit β n inputs) := by
  unfold nAtATimeInit
  refine ⟨?_, ?_, ?_, ?_, ?_, ?_, ?_⟩
  · simp
  · simp
  · simp
  · rfl
  · intro i hmem
    have := List.eq_of_mem_replicate hmem
    simp at this
  · intro i hi
    simp at hi
  · intro hmem
    have := List.eq_of_mem_replicate hmem
    simp at this

theorem nInv_step {α β : Type} {f : α → β} {inputs : List α} {n : Nat} {s : NState β}
    (hI : NInv f inputs n s) (l : Nat) : NInv f inputs n (nAtATimeStep f inputs s l) := by
  unfold nAtATimeStep
  cases hget : s.lanes.get? l with
  | none => exact hI
  | some lane =>
    cases lane with
    | done => exact hI
    | ready =>
      by_cases hcur : s.nextIndex = inputs.length
      · rw [if_pos hcur]
        refine ⟨?_, hI.resLen, hI.cursorLe, hI.invocEq, ?_, ?_, ?_⟩
        · dsimp only
          rw [List.length_set]
          exact hI.laneCount
        · intro i hmem
          dsimp only at hmem
          rcases List.mem_or_eq_of_mem_set hmem with h1 | h2
          · exact hI.waitLt i h1
          · simp at h2
        · intro i hi
          dsimp only at hi ⊢
          rcases hI.resSet i hi with h1 | h2
          · exact Or.inl h1
          · exact Or.inr (list_mem_set_of_ne h2 hget (by simp))
        · intro _; exact hcur
      · rw [if_neg hcur]
        refine ⟨?_, hI.resLen, ?_, ?_, ?_, ?_, ?_⟩
        · dsimp only
          rw [List.length_set]
          exact hI.laneCount
        · dsimp only
          have := hI.cursorLe
          omega
        · dsimp only
          rw [hI.invocEq]
        · intro i hmem
          dsimp only at hmem ⊢
          rcases List.mem_or_eq_of_mem_set hmem with h1 | h2
          · have := hI.waitLt i h1; omega
          · injection h2 with h3; omega
        · intro i hi
          dsimp only at hi ⊢
          by_cases hieq : i = s.nextIndex
          · subst hieq
            exact Or.inr (list_mem_set_self _ hget)
          · have hi' : i < s.nextIndex := by omega
            rcases hI.resSet i hi' with h1 | h2
            · exact Or.inl h1
            · exact Or.inr (list_mem_set_of_ne h2 hget (by simp))
        · intro hmem
          dsimp only at hmem
          rcases List.mem_or_eq_of_mem_set hmem with h1 | h2
          · exact absurd (hI.doneCursor h1) hcur
          · exact LaneSt.noConfusion h2
    | waiting i0 =>
      have hi0lt : i0 < s.nextIndex := hI.waitLt i0 (List.get?_mem hget)
      have hi0len : i0 < inputs.length := lt_of_lt_of_le hi0lt hI.cursorLe
      have hi0res : i0 < s.results.length := by rw [hI.resLen]; exact hi0len
      have hr0 := List.get?_eq_get hi0res
      refine ⟨?_, ?_, hI.cursorLe, hI.invocEq, ?_, ?_, ?_⟩
      · dsimp only
        rw [List.length_set]
        exact hI.laneCount
      · dsimp only
        rw [List.length_set]
        exact hI.resLen
      · intro i hmem
        dsimp only at hmem ⊢
        rcases List.mem_or_eq_of_mem_set hmem with h1 | h2
        · exact hI.waitLt i h1
        · exact LaneSt.noConfusion h2
      · intro i hi
        dsimp only at hi ⊢
        by_cases hieq : i = i0
        · subst hieq
          exact Or.inl (list_get_set_self hr0)
        · rcases hI.resSet i hi with h1 | h2
          · left
            rw [list_get_set_ne _ _ (fun h => hieq h.symm)]
            exact h1
          · right
            exact list_mem_set_of_ne h2 hget (by simpa using hieq)
      · intro hmem
        dsimp only at hmem
        rcases List.mem_or_eq_of_mem_set hmem with h1 | h2
        · exact hI.doneCursor h1
        · exact LaneSt.noConfusion h2

theorem nInv_run {α β : Type} {f : α → β} {inputs : List α} {n : Nat} {s : NState β}
    (hI : NInv f inputs n s) (t : List Nat) : NInv f inputs n (nAtATimeRun f inputs s t) := by
  induction t generalizing s with
  | nil => exact hI
  | cons l t ih => exact ih (nInv_step hI l)

/-- In a terminal state (every lane exited) reached with at least one lane, the
results array holds exactly `use(inputs[i])` at every index. -/
theorem nTerminal_results {α β : Type} {f : α → β} {inputs : List α} {n : Nat} {s : NState β}
    (hn : 1 ≤ n) (hI : NInv f inputs n s) (hd : nAllDone s) :
    s.results = inputs.map fun a => some (f a) := by
  have hne : s.lanes ≠ [] := by
    intro h
    have := hI.laneCount
    rw [h] at this
    simp at this
    omega
  obtain ⟨x, hx⟩ := List.exists_mem_of_ne_nil _ hne
  have hxdone : x = LaneSt.done := hd x hx
  have hcur : s.nextIndex = inputs.length := hI.doneCursor (hxdone ▸ hx)
  have hnowait : ∀ i, LaneSt.waiting i ∉ s.lanes := by
    intro i hmem
    have := hd _ hmem
    simp at this
  apply List.ext_get?
  intro i
  by_cases hi : i < inputs.length
  · rcases hI.resSet i (by omega) with h1 | h2
    · have ha := List.get?_eq_get hi
      rw [h1, List.get?_map, ha]
      simp
    · exact absurd h2 (hnowait i)
  · have h1 : s.results.get? i = none := by
      rw [List.get?_eq_none]
      rw [hI.resLen]; omega
    have h2 : (inputs.map fun a => some (f a)).get? i = none := by
      rw [List.get?_eq_none]
      simp; omega
    rw [h1, h2]

theorem list_set_append_len {γ : Type} :
    ∀ (l₁ : List γ) (c : γ) (l₂ : List γ) (b : γ),
      (l₁ ++ c :: l₂).set l₁.length b = l₁ ++ b :: l₂ := by
  intro l₁
  induction l₁ with
  | nil => intro c l₂ b; rfl
  | cons a t ih =>
    intro c l₂ b
    show a :: (t ++ c :: l₂).set t.length b = a :: (t ++ b :: l₂)
    rw [ih]

theorem list_set_append_at {γ : Type} (l₁ : List γ) (c : γ) (l₂ : List γ) (b : γ)
    {j : Nat} (h : l₁.length = j) : (l₁ ++ c :: l₂).set j b = l₁ ++ b :: l₂ := by
  subst h
  exact list_set_append_len l₁ c l₂ b

theorem list_replicate_set_head {γ : Type} (n : Nat) (x : γ) :
    (List.replicate n x).set 0 x = List.replicate n x := by
  cases n <;> rfl

theorem list_replicate_get_zero {γ : Type} {n : Nat} (hn : 1 ≤ n) (x : γ) :
    (List.replicate n x).get? 0 = some x := by
  cases n with
  | zero => omega
  | succ m => rfl

/-- Phase 1 of the sequential schedule: after `2 * j` resumptions of lane 0,
the first `j` inputs are processed and every lane is back at its loop top. -/
theorem nSeq_phase1 {α β : Type} (f : α → β) (inputs : List α) {n : Nat} (hn : 1 ≤ n) :
    ∀ j, j ≤ inputs.length →
      nAtATimeRun f inputs (nAtATimeInit β n inputs) (List.replicate (2 * j) 0) =
        ⟨j, (inputs.take j).map (fun a => some (f a)) ++
              List.replicate (inputs.length - j) none,
          List.replicate n .ready, j⟩ := by
  intro j
  induction j with
  | zero =>
    intro _
    simp [nAtATimeRun, nAtATimeInit]
  | succ j ih =>
    intro hj1
    have hj : j < inputs.length := by omega
    have h2 : 2 * (j + 1) = 2 * j + 2 := by omega
    rw [h2, List.replicate_add, nAtATimeRun_append, ih (by omega)]
    have hready : (List.replicate n LaneSt.ready).get? 0 = some .ready :=
      list_replicate_get_zero hn _
    have hgetj : inputs.get? j = some (inputs.get ⟨j, hj⟩) := List.get?_eq_get hj
    show nAtATimeRun f inputs _ [0, 0] = _
    simp only [nAtATimeRun]
    rw [show (nAtATimeStep f inputs
        ⟨j, (inputs.take j).map (fun a => some (f a)) ++
              List.replicate (inputs.length - j) none,
          List.replicate n .ready, j⟩ 0) =
        ⟨j + 1, (inputs.take j).map (fun a => some (f a)) ++
              List.replicate (inputs.length - j) none,
          (List.replicate n LaneSt.ready).set 0 (.waiting j), j + 1⟩ from by
      unfold nAtATimeStep
      rw [hready]
      dsimp only
      rw [if_neg (by omega)]]
    rw [show (nAtATimeStep f inputs
        ⟨j + 1, (inputs.take j).map (fun a => some (f a)) ++
              List.replicate (inputs.length - j) none,
          (List.replicate n LaneSt.ready).set 0 (.waiting j), j + 1⟩ 0) =
        ⟨j + 1, ((inputs.take j).map (fun a => some (f a)) ++
              List.replicate (inputs.length - j) none).set j ((inputs.get? j).map f),
          ((List.replicate n LaneSt.ready).set 0 (.waiting j)).set 0 .ready, j + 1⟩ from by
      unfold nAtATimeStep
      rw [list_get_set_self hready]]
    rw [List.set_set, list_replicate_set_head]
    have hres : ((inputs.take j).map (fun a => some (f a)) ++
          List.replicate (inputs.length - j) none).set j ((inputs.get? j).map f) =
        (inputs.take (j + 1)).map (fun a => some (f a)) ++
          List.replicate (inputs.length - (j + 1)) none := by
      have hlen1 : ((inputs.take j).map (fun a => some (f a))).length = j := by
        rw [List.length_map, List.length_take]
        omega
      have hrep : List.replicate (inputs.length - j) (none : Option β) =
          none :: List.replicate (inputs.length - (j + 1)) none := by
        have : inputs.length - j = (inputs.length - (j + 1)) + 1 := by omega
        rw [this, List.replicate_succ]
      have hval : (inputs.get? j).map f = some (f (inputs.get ⟨j, hj⟩)) := by
        rw [hgetj]
        rfl
      have htake : inputs.take (j + 1) = inputs.take j ++ [inputs.get ⟨j, hj⟩] := by
        rw [List.take_succ, List.getElem?_eq_getElem hj]
        rfl
      rw [hrep, list_set_append_at _ _ _ _ hlen1, hval, htake, List.map_append,
        List.append_assoc]
      rfl
    rw [hres]

/-- Phase 2 of the sequential schedule: with the cursor exhausted, resuming
lanes `0, ..., m-1` in order makes each observe the exhausted cursor and exit. -/
theorem nSeq_phase2 {α β : Type} (f : α → β) (inputs : List α) {n : Nat}
    (R : List (Option β)) (v : Nat) :
    ∀ m, m ≤ n →
      nAtATimeRun f inputs
          ⟨inputs.length, R, List.replicate n .ready, v⟩ (List.range m) =
        ⟨inputs.length, R,
          List.replicate m .done ++ List.replicate (n - m) .ready, v⟩ := by
  intro m
  induction m with
  | zero =>
    intro _
    simp [nAtATimeRun]
  | succ m ih =>
    intro hm1
    have hm : m < n := by omega
    rw [List.range_succ, nAtATimeRun_append, ih (by omega)]
    show nAtATimeStep f inputs _ m = _
    unfold nAtATimeStep
    have hget : (List.replicate m LaneSt.done ++
        List.replicate (n - m) LaneSt.ready).get? m = some .ready := by
      rw [List.get?_append_right (by simp)]
      simp only [List.length_replicate, Nat.sub_self]
      exact list_replicate_get_zero (by omega) _
    rw [hget]
    dsimp only
    rw [if_pos rfl]
    have hrep : List.replicate (n - m) (LaneSt.ready) =
        .ready :: List.replicate (n - (m + 1)) .ready := by
      have : n - m = (n - (m + 1)) + 1 := by omega
      rw [this, List.replicate_succ]
    have hlen : (List.replicate m LaneSt.done).length = m := by simp
    rw [show (List.replicate m LaneSt.done ++
          List.replicate (n - m) LaneSt.ready).set m .done =
        List.replicate (m + 1) LaneSt.done ++ List.replicate (n - (m + 1)) .ready from by
      rw [hrep, list_set_append_at _ _ _ _ hlen]
      rw [List.replicate_succ' m, List.append_assoc]
      rfl]

/-- The sequential schedule drives `nAtATime` to completion. -/
theorem nSeq_allDone {α β : Type} (f : α → β) (inputs : List α) {n : Nat} (hn : 1 ≤ n) :
    nAllDone (nAtATimeRun f inputs (nAtATimeInit β n inputs) (nSeqTrace n inputs)) := by
  unfold nSeqTrace
  rw [nAtATimeRun_append, nSeq_phase1 f inputs hn inputs.length (le_refl _),
    nSeq_phase2 f inputs _ _ n (le_refl _)]
  intro l hmem
  dsimp only at hmem
  simp only [Nat.sub_self, List.replicate_zero, List.append_nil] at hmem
  exact List.eq_of_mem_replicate hmem

/-! ### Theorems: pool setup -/

theorem poolRunFrom_append (len : Nat) (s : PoolState) (t₁ t₂ : List PoolEv) :
    poolRunFrom len s (t₁ ++ t₂) = poolRunFrom len (poolRunFrom len s t₁) t₂ := by
  induction t₁ generalizing s with
  | nil => rfl
  | cons e t ih => simp [poolRunFrom, ih]

theorem list_countP_congr {γ : Type} {p q : γ → Bool} :
    ∀ {l : List γ}, (∀ a ∈ l, p a = q a) → l.countP p = l.countP q := by
  intro l
  induction l with
  | nil => intro _; rfl
  | cons a t ih =>
    intro h
    rw [List.countP_cons, List.countP_cons, h a (List.mem_cons_self a t),
      ih fun b hb => h b (List.mem_cons_of_mem a hb)]

theorem countP_range_eq (k i : Nat) :
    (List.range k).countP (fun j => decide (j = i)) = if i < k then 1 else 0 := by
  induction k with
  | zero => simp
  | succ k ih =>
    rw [List.range_succ, List.countP_append, ih, List.countP_cons, List.countP_nil]
    simp only [decide_eq_true_eq]
    split_ifs <;> omega

theorem spawnWorkers_pendingCount (k i : Nat) :
    (spawnWorkers k).countP (fun w => decide (pendingOf w = [i])) =
      if i < k then 1 else 0 := by
  unfold spawnWorkers
  rw [List.countP_map]
  rw [list_countP_congr (q := fun j => decide (j = i)) (fun a _ => by
    show decide ([a] = [i]) = decide (a = i)
    simp)]
  exact countP_range_eq k i

theorem spawnWorkers_active (k : Nat) :
    (spawnWorkers k).countP wActive = k := by
  unfold spawnWorkers
  rw [List.countP_map]
  rw [list_countP_congr
    (p := wActive ∘ fun i => (⟨.busy i, [i], []⟩ : Worker))
    (q := fun _ => true) (fun a _ => rfl)]
  rw [List.countP_true, List.length_range]

theorem spawnWorkers_succ (k : Nat) :
    spawnWorkers k ++ [⟨.busy k, [k], []⟩] = spawnWorkers (k + 1) := by
  unfold spawnWorkers
  rw [List.range_succ, List.map_append]
  rfl

/-- Closed form of the spawn loop. -/
theorem poolSetupLoop_closed (len n : Nat) :
    ∀ (r j : Nat), j ≤ len → j = min (n - r) len → r ≤ n →
      poolSetupLoop len r ⟨j, j + r, false, .pending, spawnWorkers j, [], 0, false⟩ =
        ⟨min n len, min n len, false, .pending, spawnWorkers (min n len), [], 0, false⟩ := by
  intro r
  induction r with
  | zero =>
    intro j hj hjm hr
    have : j = min n len := by omega
    subst this
    rfl
  | succ r ih =>
    intro j hj hjm hr
    by_cases hcur : j = len
    · show poolSetupLoop len (r + 1) _ = _
      unfold poolSetupLoop
      rw [if_pos hcur]
      have h1 : j + (r + 1) - 1 = j + r := by omega
      dsimp only
      rw [h1]
      exact ih j hj (by omega) (by omega)
    · show poolSetupLoop len (r + 1) _ = _
      unfold poolSetupLoop
      rw [if_neg hcur]
      dsimp only
      rw [spawnWorkers_succ]
      have h2 : j + (r + 1) = (j + 1) + r := by omega
      rw [h2]
      exact ih (j + 1) (by omega) (by omega) (by omega)

/-- Closed form of the synchronous part of `runWithListeningChildProcesses`:
`min nProcesses inputs.length` children are spawned, child `i` holding task
`i`; `processesLeft` ends at that same count; nothing is delivered and the
promise is pending. -/
theorem poolInit_closed (len n : Nat) :
    poolInit len n =
      ⟨min n len, min n len, false, .pending, spawnWorkers (min n len), [], 0, false⟩ := by
  unfold poolInit
  have h0 : (0 : Nat) = min (n - n) len := by omega
  have := poolSetupLoop_closed len n n 0 (by omega) h0 (le_refl n)
  simpa using this

/-! ### Theorems: pool invariant preservation -/

theorem killWorker_sent (w : Worker) : (killWorker w).sent = w.sent := by
  unfold killWorker
  cases h : w.status <;> rfl

theorem killWorker_recvd (w : Worker) : (killWorker w).recvd = w.recvd := by
  unfold killWorker
  cases h : w.status <;> rfl

theorem pendingOf_kill (w : Worker) : pendingOf (killWorker w) = pendingOf w := by
  unfold killWorker pendingOf
  cases h : w.status with
  | busy t => rfl
  | killed p =>
    dsimp only
    rw [h]

theorem wActive_kill (w : Worker) : wActive (killWorker w) = wActive w := by
  unfold killWorker wActive
  cases h : w.status with
  | busy t => rfl
  | killed p =>
    dsimp only
    rw [h]

theorem wBusy_kill (w : Worker) : wBusy (killWorker w) = false := by
  unfold killWorker wBusy
  cases h : w.status with
  | busy t => rfl
  | killed p =>
    dsimp only
    rw [h]

theorem wKilledPending_false_of_flag (w : Worker) (h : wBusy w = true) :
    wKilledPending w = false := by
  unfold wBusy at h
  unfold wKilledPending
  cases hs : w.status with
  | busy t => rfl
  | killed p => rw [hs] at h; exact absurd h (by simp)

theorem countP_map_kill (p : Worker → Bool) (h : ∀ w, p (killWorker w) = p w)
    (l : List Worker) : (l.map killWorker).countP p = l.countP p := by
  rw [List.countP_map]
  exact list_countP_congr fun a _ => h a

theorem deliveredCount_fail (s : PoolState) (i : Nat) :
    deliveredCount (poolFail s) i = deliveredCount s i := rfl

theorem pendingCount_fail (s : PoolState) (i : Nat) :
    pendingCount (poolFail s) i = pendingCount s i := by
  unfold pendingCount poolFail
  dsimp only
  exact countP_map_kill _ (fun w => by rw [pendingOf_kill]) _

theorem poolInv_fail {len n : Nat} {s : PoolState} (hI : PoolInv len n s) :
    PoolInv len n (poolFail s) := by
  refine ⟨?_, ?_, ?_, ?_, ?_, ?_, hI.cursorLe, ?_, ?_, ?_, ?_, ?_, ?_, ?_⟩
  · intro w' hw'
    rcases List.mem_map.1 hw' with ⟨w, hw, rfl⟩
    obtain ⟨rest, h1, h2, h3⟩ := hI.sentSpec w hw
    exact ⟨rest, by rw [killWorker_sent, killWorker_recvd]; exact h1, h2,
      by rw [pendingOf_kill]; exact h3⟩
  · intro i
    rw [deliveredCount_fail, pendingCount_fail]
    exact hI.partLe i
  · intro h
    exact absurd h (by simp [poolFail])
  · intro h i
    rw [deliveredCount_fail]
    show deliveredCount s i = if i < s.inputIndex then 1 else 0
    by_cases hp : s.promise = .pending
    · rw [show (poolFail s).promise = .rejectedP from by
        unfold poolFail; dsimp only; rw [if_pos hp]] at h
      exact absurd h (by simp)
    · rw [show (poolFail s).promise = s.promise from by
        unfold poolFail; dsimp only; rw [if_neg hp]] at h
      exact hI.resolvedExact h i
  · show (s.workers.map killWorker).countP wActive ≤ s.processesLeft
    rw [countP_map_kill _ wActive_kill]
    exact hI.plGe
  · intro h
    exact absurd h (by simp [poolFail])
  · intro h
    show s.processesLeft = 0 ∧ s.inputIndex = len
    by_cases hp : s.promise = .pending
    · rw [show (poolFail s).promise = .rejectedP from by
        unfold poolFail; dsimp only; rw [if_pos hp]] at h
      exact absurd h (by simp)
    · rw [show (poolFail s).promise = s.promise from by
        unfold poolFail; dsimp only; rw [if_neg hp]] at h
      exact hI.resolvedSpec h
  · intro _ _ _
    by_cases hp : s.promise = .pending
    · rw [show (poolFail s).promise = .rejectedP from by
        unfold poolFail; dsimp only; rw [if_pos hp]]
      simp
    · rw [show (poolFail s).promise = s.promise from by
        unfold poolFail; dsimp only; rw [if_neg hp]]
      exact hp
  · intro h
    exact absurd h (by simp [poolFail])
  · intro _; rfl
  · intro _ w' hw'
    rcases List.mem_map.1 hw' with ⟨w, hw, rfl⟩
    exact wBusy_kill w
  · intro _
    by_cases hp : s.promise = .pending
    · rw [show (poolFail s).promise = .rejectedP from by
        unfold poolFail; dsimp only; rw [if_pos hp]]
      simp
    · rw [show (poolFail s).promise = s.promise from by
        unfold poolFail; dsimp only; rw [if_neg hp]]
      exact hp
  · intro w' hw' t ht
    rcases List.mem_map.1 hw' with ⟨w, hw, rfl⟩
    rw [pendingOf_kill] at ht
    exact hI.pendLt w hw t ht

theorem poolInit_inv (len n : Nat) : PoolInv len n (poolInit len n) := by
  rw [poolInit_closed]
  have hsum : ∀ i, deliveredCount
        ⟨min n len, min n len, false, .pending, spawnWorkers (min n len), [], 0, false⟩ i +
      pendingCount
        ⟨min n len, min n len, false, .pending, spawnWorkers (min n len), [], 0, false⟩ i =
      if i < min n len then 1 else 0 := by
    intro i
    show (([] : List (Nat × Outcome)).map Prod.fst).count i +
      (spawnWorkers (min n len)).countP (fun w => decide (pendingOf w = [i])) = _
    rw [spawnWorkers_pendingCount]
    simp
  refine ⟨?_, ?_, ?_, ?_, ?_, ?_, ?_, ?_, ?_, ?_, ?_, ?_, ?_, ?_⟩
  · intro w hw
    rcases List.mem_map.1 hw with ⟨i, _, rfl⟩
    exact ⟨[i], rfl, by simp, fun _ => rfl⟩
  · intro i
    exact le_of_eq (hsum i)
  · intro _ i
    exact hsum i
  · intro h
    exact absurd h (by simp)
  · show (spawnWorkers (min n len)).countP wActive ≤ min n len
    exact le_of_eq (spawnWorkers_active (min n len))
  · intro _
    show min n len = (spawnWorkers (min n len)).countP wActive
    rw [spawnWorkers_active]
  · show min n len ≤ len
    omega
  · intro h
    exact absurd h (by simp)
  · intro h1 h2 h0
    dsimp only at h0
    omega
  · intro _ w hw
    rcases List.mem_map.1 hw with ⟨i, _, rfl⟩
    rfl
  · intro h
    exact absurd h (by simp)
  · intro h
    exact absurd h (by simp)
  · intro h
    exact absurd h (by simp)
  · intro w hw t ht
    rcases List.mem_map.1 hw with ⟨i, hi, rfl⟩
    have : t = i := by
      have : pendingOf (⟨.busy i, [i], []⟩ : Worker) = [i] := rfl
      rw [this] at ht
      exact List.mem_singleton.1 ht
    subst this
    exact List.mem_range.1 hi

theorem count_append_single (l : List Nat) (t i : Nat) :
    (l ++ [t]).count i = l.count i + (if t = i then 1 else 0) := by
  rw [List.count_append]
  congr 1
  by_cases h : t = i
  · subst h; simp
  · simp [List.count_singleton', h]

theorem deliveredCount_snoc (dl : List (Nat × Outcome)) (t : Nat) (o : Outcome) (i : Nat) :
    ((dl ++ [(t, o)]).map Prod.fst).count i =
      (dl.map Prod.fst).count i + (if t = i then 1 else 0) := by
  rw [List.map_append]
  exact count_append_single _ t i

theorem pendingCount_set_identity (W : List Worker) (wi : Nat) {w : Worker} (w' : Worker)
    (i : Nat) (hget : W.get? wi = some w) :
    (W.set wi w').countP (fun u => decide (pendingOf u = [i])) +
      (if pendingOf w = [i] then 1 else 0) =
    W.countP (fun u => decide (pendingOf u = [i])) +
      (if pendingOf w' = [i] then 1 else 0) := by
  have h := list_countP_set (fun u => decide (pendingOf u = [i])) W wi w w' hget
  simpa using h

theorem activeCount_set (W : List Worker) (wi : Nat) {w : Worker} (w' : Worker)
    (hget : W.get? wi = some w) :
    (W.set wi w').countP wActive + (if wActive w then 1 else 0) =
    W.countP wActive + (if wActive w' then 1 else 0) :=
  list_countP_set wActive W wi w w' hget

theorem countP_pos_of_mem {γ : Type} {p : γ → Bool} {l : List γ} {a : γ}
    (hmem : a ∈ l) (hp : p a = true) : 1 ≤ l.countP p := by
  have : 0 < l.countP p := List.countP_pos.2 ⟨a, hmem, hp⟩
  omega

theorem wActive_of_pending {w : Worker} {t : Nat} (h : pendingOf w = [t]) :
    wActive w = true := by
  unfold pendingOf at h
  unfold wActive
  cases hs : w.status with
  | busy u => rfl
  | killed p =>
    cases p with
    | some u => rfl
    | none =>
      rw [hs] at h
      exact absurd h (by simp)

theorem poolInv_step {len n : Nat} {s : PoolState} (hI : PoolInv len n s) (e : PoolEv) :
    PoolInv len n (poolStep len s e) := by
  cases e with
  | msg wi out =>
    unfold poolStep
    dsimp only
    cases hget : s.workers.get? wi with
    | none => exact hI
    | some w =>
      dsimp only
      cases hst : w.status with
      | busy tsk =>
        dsimp only
        have hwmem : w ∈ s.workers := List.get?_mem hget
        have hpend : pendingOf w = [tsk] := by unfold pendingOf; rw [hst]
        have hactive : wActive w = true := by unfold wActive; rw [hst]
        have hbusy : wBusy w = true := by unfold wBusy; rw [hst]
        have htsk : tsk < s.inputIndex :=
          hI.pendLt w hwmem tsk (by rw [hpend]; exact List.mem_singleton.2 rfl)
        have hple : 1 ≤ s.workers.countP wActive := countP_pos_of_mem hwmem hactive
        have hsent : w.sent = w.recvd ++ [tsk] := by
          obtain ⟨rest, h1, h2, h3⟩ := hI.sentSpec w hwmem
          have hr : rest = [tsk] := by rw [h3 (by rw [hpend]; simp), hpend]
          rw [h1, hr]
        by_cases hcur : s.inputIndex = len
        · rw [if_pos hcur]
          set wT : Worker := { w with status := .killed none, recvd := w.recvd ++ [tsk] } with hwT
          have hpendT : pendingOf wT = [] := rfl
          have hdcT : ∀ i, ((s.delivered ++ [(tsk, out)]).map Prod.fst).count i =
              (s.delivered.map Prod.fst).count i + (if tsk = i then 1 else 0) :=
            fun i => deliveredCount_snoc s.delivered tsk out i
          have hpcT : ∀ i, (s.workers.set wi wT).countP
                (fun u => decide (pendingOf u = [i])) + (if tsk = i then 1 else 0) =
              s.workers.countP (fun u => decide (pendingOf u = [i])) := by
            intro i
            have h := pendingCount_set_identity s.workers wi wT i hget
            rw [hpend, hpendT] at h
            have e1 : (if ([tsk] : List Nat) = [i] then 1 else 0) =
                (if tsk = i then 1 else 0) := by
              by_cases ht : tsk = i <;> simp [ht]
            have e2 : (if ([] : List Nat) = [i] then (1 : Nat) else 0) = 0 := by simp
            rw [e1, e2] at h
            omega
          have haT : (s.workers.set wi wT).countP wActive + 1 =
              s.workers.countP wActive := by
            have h := activeCount_set s.workers wi wT hget
            rw [hactive] at h
            have e1 : wActive wT = false := rfl
            rw [e1] at h
            simpa using h
          refine ⟨?_, ?_, ?_, ?_, ?_, ?_, hI.cursorLe, ?_, ?_, ?_, ?_, ?_, ?_, ?_⟩
          · intro u hu
            dsimp only at hu
            rcases List.mem_or_eq_of_mem_set hu with h1 | h2
            · exact hI.sentSpec u h1
            · subst h2
              refine ⟨[], ?_, by simp, fun hc => absurd hpendT hc⟩
              show w.sent = (w.recvd ++ [tsk]) ++ []
              rw [List.append_nil]
              exact hsent
          · intro i
            have h1 := hdcT i
            have h2 := hpcT i
            have h3 := hI.partLe i
            unfold deliveredCount pendingCount at h3 ⊢
            dsimp only
            split_ifs at h1 h2 h3 ⊢ <;> omega
          · intro hf i
            dsimp only at hf
            have h1 := hdcT i
            have h2 := hpcT i
            have h3 := hI.partExact hf i
            unfold deliveredCount pendingCount at h3 ⊢
            dsimp only
            split_ifs at h1 h2 h3 ⊢ <;> omega
          · intro hres i
            dsimp only at hres
            by_cases hcond : s.processesLeft - 1 = 0 ∧ s.promise = .pending
            · have hflagf : s.rejectedFlag = false := by
                cases hfc : s.rejectedFlag with
                | true => exact absurd hcond.2 (hI.flagNotPending hfc)
                | false => rfl
              have hact0 : (s.workers.set wi wT).countP wActive = 0 := by
                have := hI.plGe
                have := hI.plEq hflagf
                omega
              have hp0 : (s.workers.set wi wT).countP
                  (fun u => decide (pendingOf u = [i])) = 0 := by
                by_contra hne
                have hpos : 0 < (s.workers.set wi wT).countP
                    (fun u => decide (pendingOf u = [i])) := by omega
                obtain ⟨u, hu, hp⟩ := List.countP_pos.1 hpos
                have hpu : pendingOf u = [i] := by simpa using hp
                have hau := wActive_of_pending hpu
                have : 1 ≤ (s.workers.set wi wT).countP wActive :=
                  countP_pos_of_mem hu hau
                omega
              have h1 := hdcT i
              have h2 := hpcT i
              have hex := hI.partExact hflagf i
              unfold deliveredCount pendingCount at hex
              unfold deliveredCount
              dsimp only
              split_ifs at h1 h2 hex ⊢ <;> omega
            · rw [if_neg hcond] at hres
              exfalso
              obtain ⟨hpl0, _⟩ := hI.resolvedSpec hres
              have := hI.plGe
              omega
          · show (s.workers.set wi wT).countP wActive ≤ s.processesLeft - 1
            have := hI.plGe
            omega
          · intro hf
            dsimp only at hf
            show s.processesLeft - 1 = (s.workers.set wi wT).countP wActive
            have := hI.plEq hf
            omega
          · intro h
            dsimp only at h ⊢
            by_cases hcond : s.processesLeft - 1 = 0 ∧ s.promise = .pending
            · rw [if_pos hcond] at h
              exact ⟨hcond.1, hcur⟩
            · rw [if_neg hcond] at h
              obtain ⟨hpl0, _⟩ := hI.resolvedSpec h
              have := hI.plGe
              omega
          · intro h1 h2 h0
            dsimp only at h0 ⊢
            by_cases hcond : s.processesLeft - 1 = 0 ∧ s.promise = .pending
            · rw [if_pos hcond]
              simp
            · rw [if_neg hcond]
              intro hp
              exact hcond ⟨h0, hp⟩
          · intro hf u hu
            dsimp only at hf hu
            rcases List.mem_or_eq_of_mem_set hu with h1 | h2
            · exact hI.flagKp hf u h1
            · subst h2; rfl
          · intro h
            dsimp only at h ⊢
            by_cases hcond : s.processesLeft - 1 = 0 ∧ s.promise = .pending
            · rw [if_pos hcond] at h
              exact absurd h (by simp)
            · rw [if_neg hcond] at h
              exact hI.rejPromise h
          · intro hf u hu
            dsimp only at hf hu
            exfalso
            have := hI.flagKilled hf w hwmem
            rw [hbusy] at this
            exact absurd this (by simp)
          · intro hf
            dsimp only at hf
            exfalso
            have := hI.flagKilled hf w hwmem
            rw [hbusy] at this
            exact absurd this (by simp)
          · intro u hu t ht
            dsimp only at hu ⊢
            rcases List.mem_or_eq_of_mem_set hu with h1 | h2
            · exact hI.pendLt u h1 t ht
            · subst h2
              rw [hpendT] at ht
              exact absurd ht (List.not_mem_nil t)
        · rw [if_neg hcur]
          set wN : Worker := { w with status := .busy s.inputIndex, sent := w.sent ++ [s.inputIndex], recvd := w.recvd ++ [tsk] } with hwN
          have hpendN : pendingOf wN = [s.inputIndex] := rfl
          have hidxlt : s.inputIndex < len := by
            have := hI.cursorLe
            omega
          have hdcN : ∀ i, ((s.delivered ++ [(tsk, out)]).map Prod.fst).count i =
              (s.delivered.map Prod.fst).count i + (if tsk = i then 1 else 0) :=
            fun i => deliveredCount_snoc s.delivered tsk out i
          have hpcN : ∀ i, (s.workers.set wi wN).countP
                (fun u => decide (pendingOf u = [i])) + (if tsk = i then 1 else 0) =
              s.workers.countP (fun u => decide (pendingOf u = [i])) +
                (if s.inputIndex = i then 1 else 0) := by
            intro i
            have h := pendingCount_set_identity s.workers wi wN i hget
            rw [hpend, hpendN] at h
            have e1 : (if ([tsk] : List Nat) = [i] then 1 else 0) =
                (if tsk = i then 1 else 0) := by
              by_cases ht : tsk = i <;> simp [ht]
            have e2 : (if ([s.inputIndex] : List Nat) = [i] then 1 else 0) =
                (if s.inputIndex = i then 1 else 0) := by
              by_cases ht : s.inputIndex = i <;> simp [ht]
            rw [e1, e2] at h
            omega
          have haN : (s.workers.set wi wN).countP wActive =
              s.workers.countP wActive := by
            have h := activeCount_set s.workers wi wN hget
            rw [hactive] at h
            have e1 : wActive wN = true := rfl
            rw [e1] at h
            simpa using h
          refine ⟨?_, ?_, ?_, ?_, ?_, ?_, ?_, ?_, ?_, ?_, ?_, ?_, ?_, ?_⟩
          · intro u hu
            dsimp only at hu
            rcases List.mem_or_eq_of_mem_set hu with h1 | h2
            · exact hI.sentSpec u h1
            · subst h2
              refine ⟨[s.inputIndex], ?_, by simp, fun _ => rfl⟩
              show w.sent ++ [s.inputIndex] = (w.recvd ++ [tsk]) ++ [s.inputIndex]
              rw [hsent]
          · intro i
            have h1 := hdcN i
            have h2 := hpcN i
            have h3 := hI.partLe i
            unfold deliveredCount pendingCount at h3 ⊢
            dsimp only
            split_ifs at h1 h2 h3 ⊢ <;> omega
          · intro hf i
            dsimp only at hf
            have h1 := hdcN i
            have h2 := hpcN i
            have h3 := hI.partExact hf i
            unfold deliveredCount pendingCount at h3 ⊢
            dsimp only
            split_ifs at h1 h2 h3 ⊢ <;> omega
          · intro hres i
            dsimp only at hres
            exfalso
            obtain ⟨_, hix⟩ := hI.resolvedSpec hres
            exact hcur hix
          · show (s.workers.set wi wN).countP wActive ≤ s.processesLeft
            rw [haN]
            exact hI.plGe
          · intro hf
            dsimp only at hf
            show s.processesLeft = (s.workers.set wi wN).countP wActive
            rw [haN]
            exact hI.plEq hf
          · show s.inputIndex + 1 ≤ len
            omega
          · intro h
            dsimp only at h
            exfalso
            obtain ⟨_, hix⟩ := hI.resolvedSpec h
            exact hcur hix
          · intro h1 h2 h0
            dsimp only at h0
            exfalso
            have := hI.plGe
            omega
          · intro hf u hu
            dsimp only at hf hu
            rcases List.mem_or_eq_of_mem_set hu with h1 | h2
            · exact hI.flagKp hf u h1
            · subst h2; rfl
          · intro h
            dsimp only at h
            exact hI.rejPromise h
          · intro hf u hu
            dsimp only at hf hu
            exfalso
            have := hI.flagKilled hf w hwmem
            rw [hbusy] at this
            exact absurd this (by simp)
          · intro hf
            dsimp only at hf
            exact hI.flagNotPending hf
          · intro u hu t ht
            dsimp only at hu ⊢
            rcases List.mem_or_eq_of_mem_set hu with h1 | h2
            · have := hI.pendLt u h1 t ht
              omega
            · subst h2
              rw [hpendN] at ht
              have : t = s.inputIndex := List.mem_singleton.1 ht
              omega
      | killed p =>
        cases p with
        | none => exact hI
        | some tsk =>
          dsimp only
          have hwmem : w ∈ s.workers := List.get?_mem hget
          have hpend : pendingOf w = [tsk] := by unfold pendingOf; rw [hst]
          have hactive : wActive w = true := by unfold wActive; rw [hst]
          have hkp : wKilledPending w = true := by unfold wKilledPending; rw [hst]
          have htsk : tsk < s.inputIndex :=
            hI.pendLt w hwmem tsk (by rw [hpend]; exact List.mem_singleton.2 rfl)
          have hple : 1 ≤ s.workers.countP wActive := countP_pos_of_mem hwmem hactive
          have hsent : w.sent = w.recvd ++ [tsk] := by
            obtain ⟨rest, h1, h2, h3⟩ := hI.sentSpec w hwmem
            have hr : rest = [tsk] := by rw [h3 (by rw [hpend]; simp), hpend]
            rw [h1, hr]
          have hflag : s.rejectedFlag = true := by
            cases hfc : s.rejectedFlag with
            | false =>
              have := hI.flagKp hfc w hwmem
              rw [hkp] at this
              exact absurd this (by simp)
            | true => rfl
          have hnp : s.promise ≠ .pending := hI.flagNotPending hflag
          have hnres : s.promise ≠ .resolvedP := by
            intro hres
            obtain ⟨hpl0, _⟩ := hI.resolvedSpec hres
            have := hI.plGe
            omega
          by_cases hcur : s.inputIndex = len
          · rw [if_pos hcur]
            set wT : Worker := { w with status := .killed none, recvd := w.recvd ++ [tsk] } with hwT
            have hpendT : pendingOf wT = [] := rfl
            have hcondf : ¬ (s.processesLeft - 1 = 0 ∧ s.promise = .pending) :=
              fun hc => hnp hc.2
            have hdcT : ∀ i, ((s.delivered ++ [(tsk, out)]).map Prod.fst).count i =
                (s.delivered.map Prod.fst).count i + (if tsk = i then 1 else 0) :=
              fun i => deliveredCount_snoc s.delivered tsk out i
            have hpcT : ∀ i, (s.workers.set wi wT).countP
                  (fun u => decide (pendingOf u = [i])) + (if tsk = i then 1 else 0) =
                s.workers.countP (fun u => decide (pendingOf u = [i])) := by
              intro i
              have h := pendingCount_set_identity s.workers wi wT i hget
              rw [hpend, hpendT] at h
              have e1 : (if ([tsk] : List Nat) = [i] then 1 else 0) =
                  (if tsk = i then 1 else 0) := by
                by_cases ht : tsk = i <;> simp [ht]
              have e2 : (if ([] : List Nat) = [i] then (1 : Nat) else 0) = 0 := by simp
              rw [e1, e2] at h
              omega
            have haT : (s.workers.set wi wT).countP wActive + 1 =
                s.workers.countP wActive := by
              have h := activeCount_set s.workers wi wT hget
              rw [hactive] at h
              have e1 : wActive wT = false := rfl
              rw [e1] at h
              simpa using h
            refine ⟨?_, ?_, ?_, ?_, ?_, ?_, hI.cursorLe, ?_, ?_, ?_, ?_, ?_, ?_, ?_⟩
            · intro u hu
              dsimp only at hu
              rcases List.mem_or_eq_of_mem_set hu with h1 | h2
              · exact hI.sentSpec u h1
              · subst h2
                refine ⟨[], ?_, by simp, fun hc => absurd hpendT hc⟩
                show w.sent = (w.recvd ++ [tsk]) ++ []
                rw [List.append_nil]
                exact hsent
            · intro i
              have h1 := hdcT i
              have h2 := hpcT i
              have h3 := hI.partLe i
              unfold deliveredCount pendingCount at h3 ⊢
              dsimp only
              split_ifs at h1 h2 h3 ⊢ <;> omega
            · intro hf
              dsimp only at hf
              rw [hflag] at hf
              exact absurd hf (by simp)
            · intro hres i
              exfalso
              dsimp only at hres
              rw [if_neg hcondf] at hres
              exact hnres hres
            · show (s.workers.set wi wT).countP wActive ≤ s.processesLeft - 1
              have := hI.plGe
              omega
            · intro hf
              dsimp only at hf
              rw [hflag] at hf
              exact absurd hf (by simp)
            · intro h
              exfalso
              dsimp only at h
              rw [if_neg hcondf] at h
              exact hnres h
            · intro _ _ _
              dsimp only
              rw [if_neg hcondf]
              exact hnp
            · intro hf
              dsimp only at hf
              rw [hflag] at hf
              exact absurd hf (by simp)
            · intro _
              exact hflag
            · intro _ u hu
              dsimp only at hu
              rcases List.mem_or_eq_of_mem_set hu with h1 | h2
              · exact hI.flagKilled hflag u h1
              · subst h2; rfl
            · intro _
              dsimp only
              rw [if_neg hcondf]
              exact hnp
            · intro u hu t ht
              dsimp only at hu ⊢
              rcases List.mem_or_eq_of_mem_set hu with h1 | h2
              · exact hI.pendLt u h1 t ht
              · subst h2
                rw [hpendT] at ht
                exact absurd ht (List.not_mem_nil t)
          · rw [if_neg hcur]
            set wE : Worker := { w with status := .killed none, sent := w.sent ++ [s.inputIndex], recvd := w.recvd ++ [tsk] } with hwE
            have hpendE : pendingOf wE = [] := rfl
            have hdcE : ∀ i, ((s.delivered ++ [(tsk, out)]).map Prod.fst).count i =
                (s.delivered.map Prod.fst).count i + (if tsk = i then 1 else 0) :=
              fun i => deliveredCount_snoc s.delivered tsk out i
            have hpcE : ∀ i, (s.workers.set wi wE).countP
                  (fun u => decide (pendingOf u = [i])) + (if tsk = i then 1 else 0) =
                s.workers.countP (fun u => decide (pendingOf u = [i])) := by
              intro i
              have h := pendingCount_set_identity s.workers wi wE i hget
              rw [hpend, hpendE] at h
              have e1 : (if ([tsk] : List Nat) = [i] then 1 else 0) =
                  (if tsk = i then 1 else 0) := by
                by_cases ht : tsk = i <;> simp [ht]
              have e2 : (if ([] : List Nat) = [i] then (1 : Nat) else 0) = 0 := by simp
              rw [e1, e2] at h
              omega
            have haE : (s.workers.set wi wE).countP wActive + 1 =
                s.workers.countP wActive := by
              have h := activeCount_set s.workers wi wE hget
              rw [hactive] at h
              have e1 : wActive wE = false := rfl
              rw [e1] at h
              simpa using h
            refine ⟨?_, ?_, ?_, ?_, ?_, ?_, ?_, ?_, ?_, ?_, ?_, ?_, ?_, ?_⟩
            · intro u hu
              dsimp only at hu
              rcases List.mem_or_eq_of_mem_set hu with h1 | h2
              · exact hI.sentSpec u h1
              · subst h2
                refine ⟨[s.inputIndex], ?_, by simp, fun hc => absurd hpendE hc⟩
                show w.sent ++ [s.inputIndex] = (w.recvd ++ [tsk]) ++ [s.inputIndex]
                rw [hsent]
            · intro i
              have h1 := hdcE i
              have h2 := hpcE i
              have h3 := hI.partLe i
              unfold deliveredCount pendingCount at h3 ⊢
              dsimp only
              split_ifs at h1 h2 h3 ⊢ <;> omega
            · intro hf
              dsimp only at hf
              rw [hflag] at hf
              exact absurd hf (by simp)
            · intro hres i
              exfalso
              dsimp only at hres
              exact hnres hres
            · show (s.workers.set wi wE).countP wActive ≤ s.processesLeft
              have := hI.plGe
              omega
            · intro hf
              dsimp only at hf
              rw [hflag] at hf
              exact absurd hf (by simp)
            · show s.inputIndex + 1 ≤ len
              have := hI.cursorLe
              omega
            · intro h
              exfalso
              dsimp only at h
              exact hnres h
            · intro _ _ _
              dsimp only
              exact hnp
            · intro hf
              dsimp only at hf
              rw [hflag] at hf
              exact absurd hf (by simp)
            · intro _
              exact hflag
            · intro _ u hu
              dsimp only at hu
              rcases List.mem_or_eq_of_mem_set hu with h1 | h2
              · exact hI.flagKilled hflag u h1
              · subst h2; rfl
            · intro _
              dsimp only
              exact hnp
            · intro u hu t ht
              dsimp only at hu ⊢
              rcases List.mem_or_eq_of_mem_set hu with h1 | h2
              · have := hI.pendLt u h1 t ht
                omega
              · subst h2
                rw [hpendE] at ht
                exact absurd ht (List.not_mem_nil t)
  | disconnect wi =>
    unfold poolStep
    dsimp only
    cases hget : s.workers.get? wi with
    | none => exact hI
    | some w =>
      dsimp only
      by_cases hcur : s.inputIndex = len
      · rw [if_pos hcur]
        exact hI
      · rw [if_neg hcur]
        exact poolInv_fail hI
  | close wi =>
    unfold poolStep
    dsimp only
    cases hget : s.workers.get? wi with
    | none => exact hI
    | some w =>
      dsimp only
      by_cases hcond : s.rejectedFlag = true ∨ s.inputIndex = len
      · rw [if_pos hcond]
        exact hI
      · rw [if_neg hcond]
        exact ⟨hI.sentSpec, hI.partLe, hI.partExact, hI.resolvedExact, hI.plGe,
          hI.plEq, hI.cursorLe, hI.resolvedSpec, hI.plZero, hI.flagKp,
          hI.rejPromise, hI.flagKilled, hI.flagNotPending, hI.pendLt⟩
  | error wi =>
    unfold poolStep
    dsimp only
    cases hget : s.workers.get? wi with
    | none => exact hI
    | some w =>
      dsimp only
      exact poolInv_fail hI

theorem poolInv_run {len n : Nat} {s : PoolState} (hI : PoolInv len n s) (t : List PoolEv) :
    PoolInv len n (poolRunFrom len s t) := by
  induction t generalizing s with
  | nil => exact hI
  | cons e t ih => exact ih (poolInv_step hI e)

theorem poolRun_inv {α : Type} (inputs : List α) (n : Nat) (t : List PoolEv) :
    PoolInv inputs.length n (poolRun inputs n t) :=
  poolInv_run (poolInit_inv inputs.length n) t

/-! ### Theorems: pool safety -/

theorem pendingOf_of_active {w : Worker} (h : wActive w = true) :
    ∃ t, pendingOf w = [t] := by
  unfold wActive at h
  unfold pendingOf
  cases hs : w.status with
  | busy u => exact ⟨u, rfl⟩
  | killed p =>
    cases p with
    | some u => exact ⟨u, rfl⟩
    | none =>
      rw [hs] at h
      exact absurd h (by simp)

/-- With no worker owing an outcome, every pending-count is zero. -/
theorem pendingCount_zero_of_no_active {s : PoolState}
    (h : s.workers.countP wActive = 0) (i : Nat) : pendingCount s i = 0 := by
  unfold pendingCount
  by_contra hne
  have hpos : 0 < s.workers.countP fun u => decide (pendingOf u = [i]) := by omega
  obtain ⟨w, hw, hp⟩ := List.countP_pos.1 hpos
  have : pendingOf w = [i] := by simpa using hp
  have hact := wActive_of_pending this
  have : 1 ≤ s.workers.countP wActive := countP_pos_of_mem hw hact
  omega

/-- If the pool's promise has resolved, every task's outcome was delivered to
`handleOutput` exactly once (and nothing outside the task list was). -/
theorem pool_resolved_counts {len n : Nat} {s : PoolState} (hI : PoolInv len n s)
    (h : s.promise = .resolvedP) :
    ∀ i, deliveredCount s i = if i < len then 1 else 0 := by
  obtain ⟨hpl, hidx⟩ := hI.resolvedSpec h
  intro i
  have hex := hI.resolvedExact h i
  rw [hidx] at hex
  exact hex

/-- If `fail()` has never run and every task's outcome has been delivered,
the promise has resolved. -/
theorem pool_allDelivered_resolved {len n : Nat} {s : PoolState} (hI : PoolInv len n s)
    (hn : 1 ≤ n) (hlen : 1 ≤ len) (hflag : s.rejectedFlag = false)
    (hall : ∀ i, i < len → deliveredCount s i = 1) : s.promise = .resolvedP := by
  have hidx : s.inputIndex = len := by
    have hle := hI.cursorLe
    by_contra hne
    have hlt : s.inputIndex < len := by omega
    have h1 := hI.partLe s.inputIndex
    rw [if_neg (by omega)] at h1
    have := hall s.inputIndex hlt
    omega
  have hpc0 : ∀ i, i < len → pendingCount s i = 0 := by
    intro i hi
    have h1 := hI.partExact hflag i
    rw [if_pos (by omega)] at h1
    have := hall i hi
    omega
  have hact0 : s.workers.countP wActive = 0 := by
    by_contra hne
    have hpos : 0 < s.workers.countP wActive := by omega
    obtain ⟨w, hw, hact⟩ := List.countP_pos.1 hpos
    obtain ⟨t, hp⟩ := pendingOf_of_active hact
    have htlt : t < len := by
      have := hI.pendLt w hw t (by rw [hp]; exact List.mem_singleton.2 rfl)
      omega
    have h1 : 1 ≤ pendingCount s t := by
      apply countP_pos_of_mem hw
      simp [hp]
    have := hpc0 t htlt
    omega
  have hpl0 : s.processesLeft = 0 := by
    have := hI.plEq hflag
    omega
  have hnp := hI.plZero hn hlen hpl0
  cases hq : s.promise with
  | pending => exact absurd hq hnp
  | resolvedP => rfl
  | rejectedP =>
    have := hI.rejPromise hq
    rw [hflag] at this
    exact absurd this (by simp)

/-! ### Theorems: pool liveness -/

theorem poolStep_msg_flag (len : Nat) (s : PoolState) (wi : Nat) (o : Outcome) :
    (poolStep len s (.msg wi o)).rejectedFlag = s.rejectedFlag := by
  unfold poolStep
  dsimp only
  cases hget : s.workers.get? wi with
  | none => rfl
  | some w =>
    dsimp only
    cases hst : w.status with
    | killed p =>
      cases p with
      | none => rfl
      | some tsk =>
        dsimp only
        by_cases hcur : s.inputIndex = len
        · rw [if_pos hcur]
        · rw [if_neg hcur]
    | busy tsk =>
      dsimp only
      by_cases hcur : s.inputIndex = len
      · rw [if_pos hcur]
      · rw [if_neg hcur]

theorem poolStep_msg_delivered {len : Nat} {s : PoolState} {wi : Nat} {w : Worker}
    {tsk : Nat} (o : Outcome) (hget : s.workers.get? wi = some w)
    (hst : w.status = .busy tsk) :
    (poolStep len s (.msg wi o)).delivered = s.delivered ++ [(tsk, o)] := by
  unfold poolStep
  dsimp only
  rw [hget]
  dsimp only
  rw [hst]
  dsimp only
  by_cases hcur : s.inputIndex = len
  · rw [if_pos hcur]
  · rw [if_neg hcur]

/-- Delivered task indices are pairwise distinct. -/
theorem pool_delivered_nodup {len n : Nat} {s : PoolState} (hI : PoolInv len n s) :
    (s.delivered.map Prod.fst).Nodup := by
  rw [List.nodup_iff_count_le_one]
  intro a
  have h1 := hI.partLe a
  unfold deliveredCount pendingCount at h1
  by_cases ha : a < s.inputIndex
  · rw [if_pos ha] at h1
    omega
  · rw [if_neg ha] at h1
    omega

theorem pool_delivered_mem_lt {len n : Nat} {s : PoolState} (hI : PoolInv len n s)
    {a : Nat} (ha : a ∈ s.delivered.map Prod.fst) : a < len := by
  by_contra hge
  have hcnt : 1 ≤ (s.delivered.map Prod.fst).count a := by
    have := List.count_pos_iff_mem.2 ha
    omega
  have hle := hI.cursorLe
  have h1 := hI.partLe a
  unfold deliveredCount pendingCount at h1
  rw [if_neg (by omega)] at h1
  omega

theorem pool_delivered_sub {len n : Nat} {s : PoolState} (hI : PoolInv len n s) :
    (s.delivered.map Prod.fst).toFinset ⊆ Finset.range len := by
  intro a ha
  rw [List.mem_toFinset] at ha
  rw [Finset.mem_range]
  exact pool_delivered_mem_lt hI ha

theorem pool_delivered_length_le {len n : Nat} {s : PoolState} (hI : PoolInv len n s) :
    s.delivered.length ≤ len := by
  have h1 : (s.delivered.map Prod.fst).toFinset.card = (s.delivered.map Prod.fst).length :=
    List.toFinset_card_of_nodup (pool_delivered_nodup hI)
  have h2 := Finset.card_le_card (pool_delivered_sub hI)
  rw [Finset.card_range] at h2
  rw [h1, List.length_map] at h2
  exact h2

/-- A full-length delivery log means every task was delivered (exactly once). -/
theorem pool_delivered_full {len n : Nat} {s : PoolState} (hI : PoolInv len n s)
    (hlen : len ≤ s.delivered.length) : ∀ i, i < len → deliveredCount s i = 1 := by
  have hnd := pool_delivered_nodup hI
  have h1 : (s.delivered.map Prod.fst).toFinset.card = (s.delivered.map Prod.fst).length :=
    List.toFinset_card_of_nodup hnd
  have heq : (s.delivered.map Prod.fst).toFinset = Finset.range len := by
    apply Finset.eq_of_subset_of_card_le (pool_delivered_sub hI)
    rw [h1, List.length_map, Finset.card_range]
    exact hlen
  intro i hi
  have hmem : i ∈ s.delivered.map Prod.fst := by
    rw [← List.mem_toFinset, heq, Finset.mem_range]
    exact hi
  have hcnt : 1 ≤ (s.delivered.map Prod.fst).count i := by
    have := List.count_pos_iff_mem.2 hmem
    omega
  have hone : (s.delivered.map Prod.fst).count i ≤ 1 :=
    (List.nodup_iff_count_le_one.1 hnd) i
  unfold deliveredCount
  omega

/-- From any reachable un-failed state, some schedule of worker messages
resolves the pool. -/
theorem pool_liveness {len n : Nat} (hn : 1 ≤ n) (hlen : 1 ≤ len) :
    ∀ (m : Nat) (s : PoolState), PoolInv len n s → s.rejectedFlag = false →
      len ≤ s.delivered.length + m →
      ∃ t, (poolRunFrom len s t).promise = .resolvedP := by
  intro m
  induction m with
  | zero =>
    intro s hI hflag hm
    refine ⟨[], ?_⟩
    show s.promise = .resolvedP
    exact pool_allDelivered_resolved hI hn hlen hflag (pool_delivered_full hI (by omega))
  | succ m ih =>
    intro s hI hflag hm
    by_cases hres : s.promise = .resolvedP
    · exact ⟨[], hres⟩
    · have hnp : s.promise = .pending := by
        cases hq : s.promise with
        | pending => rfl
        | resolvedP => exact absurd hq hres
        | rejectedP =>
          have := hI.rejPromise hq
          rw [hflag] at this
          exact absurd this (by simp)
      have hpl : s.processesLeft ≠ 0 := by
        intro h0
        exact hI.plZero hn hlen h0 hnp
      have hpos : 0 < s.workers.countP wActive := by
        have := hI.plEq hflag
        omega
      obtain ⟨w, hw, hact⟩ := List.countP_pos.1 hpos
      have hnkp : wKilledPending w = false := hI.flagKp hflag w hw
      have hbusy : ∃ tsk, w.status = .busy tsk := by
        unfold wActive at hact
        unfold wKilledPending at hnkp
        cases hs : w.status with
        | busy t => exact ⟨t, rfl⟩
        | killed p =>
          cases p with
          | some t => rw [hs] at hnkp; exact absurd hnkp (by simp)
          | none => rw [hs] at hact; exact absurd hact (by simp)
      obtain ⟨tsk, hst⟩ := hbusy
      obtain ⟨wi, hget⟩ := List.get?_of_mem hw
      set s' := poolStep len s (.msg wi ⟨"", "OK"⟩) with hs'
      have hI' : PoolInv len n s' := poolInv_step hI _
      have hflag' : s'.rejectedFlag = false := by
        rw [hs', poolStep_msg_flag, hflag]
      have hdel : s'.delivered = s.delivered ++ [(tsk, ⟨"", "OK"⟩)] :=
        poolStep_msg_delivered _ hget hst
      have hlen' : len ≤ s'.delivered.length + m := by
        rw [hdel, List.length_append]
        simp only [List.length_singleton]
        omega
      obtain ⟨t, ht⟩ := ih s' hI' hflag' hlen'
      exact ⟨.msg wi ⟨"", "OK"⟩ :: t, ht⟩

/-! ### Theorems: abort path and degenerate runs -/

theorem poolFail_not_pending (s : PoolState) : (poolFail s).promise ≠ .pending := by
  unfold poolFail
  dsimp only
  by_cases hp : s.promise = .pending
  · rw [if_pos hp]
    simp
  · rw [if_neg hp]
    exact hp

theorem poolFail_promise_of_not_pending {s : PoolState} (h : s.promise ≠ .pending) :
    (poolFail s).promise = s.promise := by
  unfold poolFail
  dsimp only
  rw [if_neg h]

theorem poolFail_killed (s : PoolState) :
    ∀ w ∈ (poolFail s).workers, wBusy w = false := by
  intro w hw
  rcases List.mem_map.1 hw with ⟨u, _, rfl⟩
  exact wBusy_kill u

theorem killWorker_id_of_not_busy {w : Worker} (h : wBusy w = false) :
    killWorker w = w := by
  unfold wBusy at h
  unfold killWorker
  cases hs : w.status with
  | busy t =>
    rw [hs] at h
    exact absurd h (by simp)
  | killed p => rfl

theorem list_map_id_of {γ : Type} {f : γ → γ} :
    ∀ {l : List γ}, (∀ a ∈ l, f a = a) → l.map f = l := by
  intro l
  induction l with
  | nil => intro _; rfl
  | cons a t ih =>
    intro h
    show f a :: t.map f = a :: t
    rw [h a (List.mem_cons_self a t), ih fun b hb => h b (List.mem_cons_of_mem a hb)]

/-- One event after an abort: the settled promise and the flag are untouched,
every worker stays dead, and the tally of delivered outcomes plus still-buffered
outcomes (workers killed with an answer outstanding) is conserved — a step
either changes nothing or converts one buffered outcome into one delivery. -/
theorem pool_abort_frame_step {len : Nat} {s : PoolState}
    (hflag : s.rejectedFlag = true) (hkill : ∀ w ∈ s.workers, wBusy w = false)
    (hnp : s.promise ≠ .pending) (e : PoolEv) :
    (poolStep len s e).promise = s.promise ∧
    (poolStep len s e).rejectedFlag = true ∧
    (∀ w ∈ (poolStep len s e).workers, wBusy w = false) ∧
    (poolStep len s e).delivered.length +
        (poolStep len s e).workers.countP wKilledPending =
      s.delivered.length + s.workers.countP wKilledPending := by
  cases e with
  | msg wi out =>
    unfold poolStep
    dsimp only
    cases hget : s.workers.get? wi with
    | none => exact ⟨rfl, hflag, hkill, rfl⟩
    | some w =>
      dsimp only
      cases hst : w.status with
      | busy tsk =>
        exfalso
        have := hkill w (List.get?_mem hget)
        unfold wBusy at this
        rw [hst] at this
        exact absurd this (by simp)
      | killed p =>
        cases p with
        | none => exact ⟨rfl, hflag, hkill, rfl⟩
        | some tsk =>
          dsimp only
          have hwmem : w ∈ s.workers := List.get?_mem hget
          have hkpw : wKilledPending w = true := by unfold wKilledPending; rw [hst]
          have hcondf : ¬ (s.processesLeft - 1 = 0 ∧ s.promise = .pending) :=
            fun hc => hnp hc.2
          by_cases hcur : s.inputIndex = len
          · rw [if_pos hcur]
            refine ⟨?_, hflag, ?_, ?_⟩
            · dsimp only
              rw [if_neg hcondf]
            · intro u hu
              dsimp only at hu
              rcases List.mem_or_eq_of_mem_set hu with h1 | h2
              · exact hkill u h1
              · subst h2; rfl
            · dsimp only
              have h := list_countP_set wKilledPending s.workers wi w { w with status := .killed none, recvd := w.recvd ++ [tsk] } hget
              rw [hkpw] at h
              have e1 : wKilledPending { w with status := WStatus.killed none, recvd := w.recvd ++ [tsk] } = false := rfl
              rw [e1] at h
              simp only [List.length_append, List.length_singleton]
              simp at h
              omega
          · rw [if_neg hcur]
            refine ⟨rfl, hflag, ?_, ?_⟩
            · intro u hu
              dsimp only at hu
              rcases List.mem_or_eq_of_mem_set hu with h1 | h2
              · exact hkill u h1
              · subst h2; rfl
            · dsimp only
              have h := list_countP_set wKilledPending s.workers wi w { w with status := .killed none, sent := w.sent ++ [s.inputIndex], recvd := w.recvd ++ [tsk] } hget
              rw [hkpw] at h
              have e1 : wKilledPending { w with status := WStatus.killed none, sent := w.sent ++ [s.inputIndex], recvd := w.recvd ++ [tsk] } = false := rfl
              rw [e1] at h
              simp only [List.length_append, List.length_singleton]
              simp at h
              omega
  | disconnect wi =>
    unfold poolStep
    dsimp only
    cases hget : s.workers.get? wi with
    | none => exact ⟨rfl, hflag, hkill, rfl⟩
    | some w =>
      dsimp only
      by_cases hcur : s.inputIndex = len
      · rw [if_pos hcur]
        exact ⟨rfl, hflag, hkill, rfl⟩
      · rw [if_neg hcur]
        refine ⟨poolFail_promise_of_not_pending hnp, rfl, poolFail_killed s, ?_⟩
        show s.delivered.length + (s.workers.map killWorker).countP wKilledPending = _
        rw [list_map_id_of fun u hu => killWorker_id_of_not_busy (hkill u hu)]
  | close wi =>
    unfold poolStep
    dsimp only
    cases hget : s.workers.get? wi with
    | none => exact ⟨rfl, hflag, hkill, rfl⟩
    | some w =>
      dsimp only
      rw [if_pos (Or.inl hflag)]
      exact ⟨rfl, hflag, hkill, rfl⟩
  | error wi =>
    unfold poolStep
    dsimp only
    cases hget : s.workers.get? wi with
    | none => exact ⟨rfl, hflag, hkill, rfl⟩
    | some w =>
      dsimp only
      refine ⟨poolFail_promise_of_not_pending hnp, rfl, poolFail_killed s, ?_⟩
      show s.delivered.length + (s.workers.map killWorker).countP wKilledPending = _
      rw [list_map_id_of fun u hu => killWorker_id_of_not_busy (hkill u hu)]

/-- After an abort: the promise never changes again, the flag stays set, the
workers stay dead, and the delivered-plus-buffered tally is conserved, so at
most one further outcome per worker killed mid-task can still reach
`handleOutput`. -/
theorem pool_abort_frame {len : Nat} {s : PoolState}
    (hflag : s.rejectedFlag = true) (hkill : ∀ w ∈ s.workers, wBusy w = false)
    (hnp : s.promise ≠ .pending) (t : List PoolEv) :
    (poolRunFrom len s t).promise = s.promise ∧
    (poolRunFrom len s t).rejectedFlag = true ∧
    (poolRunFrom len s t).delivered.length +
        (poolRunFrom len s t).workers.countP wKilledPending =
      s.delivered.length + s.workers.countP wKilledPending := by
  induction t generalizing s with
  | nil => exact ⟨rfl, hflag, rfl⟩
  | cons e t ih =>
    obtain ⟨hp, hf, hk, hc⟩ := pool_abort_frame_step hflag hkill hnp e
    have hnp2 : (poolStep len s e).promise ≠ .pending := by
      rw [hp]; exact hnp
    obtain ⟨ihp, ihf, ihc⟩ := ih hf hk hnp2
    refine ⟨?_, ihf, ?_⟩
    · show (poolRunFrom len (poolStep len s e) t).promise = s.promise
      rw [ihp, hp]
    · show (poolRunFrom len (poolStep len s e) t).delivered.length +
          (poolRunFrom len (poolStep len s e) t).workers.countP wKilledPending = _
      omega

theorem poolInit_degenerate (len n : Nat) (h : len = 0 ∨ n = 0) :
    poolInit len n = ⟨0, 0, false, .pending, [], [], 0, false⟩ := by
  rw [poolInit_closed]
  have hmin : min n len = 0 := by omega
  rw [hmin]
  rfl

theorem poolStep_no_workers {len : Nat} {s : PoolState} (h : s.workers = [])
    (e : PoolEv) : poolStep len s e = s := by
  cases e <;> (unfold poolStep; rw [h]; rfl)

theorem poolRunFrom_no_workers {len : Nat} {s : PoolState} (h : s.workers = [])
    (t : List PoolEv) : poolRunFrom len s t = s := by
  induction t with
  | nil => rfl
  | cons e t ih =>
    show poolRunFrom len (poolStep len s e) t = s
    rw [poolStep_no_workers h e]
    exact ih

/-- With no tasks (or no processes) the initial state has no children and no
event can ever fire: the run is frozen at the initial state. -/
theorem poolRun_degenerate {α : Type} {inputs : List α} {n : Nat}
    (h : inputs = [] ∨ n = 0) (t : List PoolEv) :
    poolRun inputs n t = poolInit inputs.length n := by
  unfold poolRun
  have hd : inputs.length = 0 ∨ n = 0 := by
    rcases h with h | h
    · left; rw [h]; rfl
    · right; exact h
  apply poolRunFrom_no_workers
  rw [poolInit_degenerate _ _ hd]

/-! ### Theorems: outcome payloads never steer the pool -/

theorem poolFail_erase (s : PoolState) :
    poolFail (eraseDelivered s) = eraseDelivered (poolFail s) := rfl

theorem poolStep_erase (len : Nat) (s : PoolState) (e : PoolEv) :
    poolStep len (eraseDelivered s) (eraseOutcome e) = eraseDelivered (poolStep len s e) := by
  cases e with
  | msg wi out =>
    show poolStep len (eraseDelivered s) (.msg wi ⟨"", "OK"⟩) =
      eraseDelivered (poolStep len s (.msg wi out))
    unfold poolStep eraseDelivered
    dsimp only
    cases hget : s.workers.get? wi with
    | none => rfl
    | some w =>
      dsimp only
      cases hst : w.status with
      | killed p =>
        cases p with
        | none => rfl
        | some tsk =>
          dsimp only
          by_cases hcur : s.inputIndex = len
          · simp only [if_pos hcur]
            simp [List.map_append]
          · simp only [if_neg hcur]
            simp [List.map_append]
      | busy tsk =>
        dsimp only
        by_cases hcur : s.inputIndex = len
        · simp only [if_pos hcur]
          simp [List.map_append]
        · simp only [if_neg hcur]
          simp [List.map_append]
  | disconnect wi =>
    show poolStep len (eraseDelivered s) (.disconnect wi) =
      eraseDelivered (poolStep len s (.disconnect wi))
    unfold poolStep
    dsimp only [eraseDelivered]
    cases hget : s.workers.get? wi with
    | none => rfl
    | some w =>
      dsimp only
      by_cases hcur : s.inputIndex = len
      · simp only [if_pos hcur]
        try rfl
      · simp only [if_neg hcur]
        try rfl
  | close wi =>
    show poolStep len (eraseDelivered s) (.close wi) =
      eraseDelivered (poolStep len s (.close wi))
    unfold poolStep
    dsimp only [eraseDelivered]
    cases hget : s.workers.get? wi with
    | none => rfl
    | some w =>
      dsimp only
      by_cases hcond : s.rejectedFlag = true ∨ s.inputIndex = len
      · simp only [if_pos hcond]
        try rfl
      · simp only [if_neg hcond]
        try rfl
  | error wi =>
    show poolStep len (eraseDelivered s) (.error wi) =
      eraseDelivered (poolStep len s (.error wi))
    unfold poolStep
    dsimp only [eraseDelivered]
    cases hget : s.workers.get? wi with
    | none => rfl
    | some w =>
      dsimp only
      exact poolFail_erase s

theorem poolRunFrom_erase (len : Nat) (s : PoolState) (t : List PoolEv) :
    poolRunFrom len (eraseDelivered s) (t.map eraseOutcome) =
      eraseDelivered (poolRunFrom len s t) := by
  induction t generalizing s with
  | nil => rfl
  | cons e t ih =>
    show poolRunFrom len (poolStep len (eraseDelivered s) (eraseOutcome e))
        (t.map eraseOutcome) = _
    rw [poolStep_erase]
    exact ih (poolStep len s e)

theorem eraseDelivered_init (len n : Nat) :
    eraseDelivered (poolInit len n) = poolInit len n := by
  rw [poolInit_closed]
  rfl

/-- The pool's whole evolution, except the stored payloads, is unchanged when
every worker reports success instead of whatever it reported. -/
theorem poolRun_erase {α : Type} (inputs : List α) (n : Nat) (t : List PoolEv) :
    poolRun inputs n (t.map eraseOutcome) = eraseDelivered (poolRun inputs n t) := by
  unfold poolRun
  nth_rewrite 1 [← eraseDelivered_init inputs.length n]
  exact poolRunFrom_erase inputs.length (poolInit inputs.length n) t

/-! ### Theorems: `main` aggregation -/

theorem foldl_handle_mem (os : List Outcome) :
    ∀ (acc : List (String × String)) (x : String × String),
      x ∈ os.foldl mainHandleOutput acc ↔
        x ∈ acc ∨ ((⟨x.1, x.2⟩ : Outcome) ∈ os ∧ x.2 ≠ "OK") := by
  induction os with
  | nil =>
    intro acc x
    simp
  | cons o os ih =>
    intro acc x
    show x ∈ os.foldl mainHandleOutput (mainHandleOutput acc o) ↔ _
    rw [ih]
    unfold mainHandleOutput
    by_cases h : o.status = "OK"
    · rw [if_pos h]
      constructor
      · rintro (hx | hx)
        · exact Or.inl hx
        · exact Or.inr ⟨List.mem_cons_of_mem o hx.1, hx.2⟩
      · rintro (hx | ⟨hmem, hne⟩)
        · exact Or.inl hx
        · rcases List.mem_cons.1 hmem with heq | hmem'
          · exfalso
            apply hne
            rw [← heq] at h
            exact h
          · exact Or.inr ⟨hmem', hne⟩
    · rw [if_neg h]
      constructor
      · rintro (hx | hx)
        · rcases List.mem_append.1 hx with h1 | h2
          · exact Or.inl h1
          · have hxo : x = (o.path, o.status) := List.mem_singleton.1 h2
            right
            constructor
            · rw [hxo]
              exact List.mem_cons_self o os
            · rw [hxo]
              exact h
        · exact Or.inr ⟨List.mem_cons_of_mem o hx.1, hx.2⟩
      · rintro (hx | ⟨hmem, hne⟩)
        · exact Or.inl (List.mem_append_left _ hx)
        · rcases List.mem_cons.1 hmem with heq | hmem'
          · left
            apply List.mem_append_right
            apply List.mem_singleton.2
            rw [← heq]
          · exact Or.inr ⟨hmem', hne⟩

/-- Membership in `allFailures` is exactly: the worker reported that path with
that (verbatim) non-"OK" status. -/
theorem allFailures_mem (os : List Outcome) (p st : String) :
    (p, st) ∈ allFailures os ↔ (⟨p, st⟩ : Outcome) ∈ os ∧ st ≠ "OK" := by
  unfold allFailures
  rw [foldl_handle_mem os [] (p, st)]
  simp

theorem allFailures_nil_iff (os : List Outcome) :
    allFailures os = [] ↔ ∀ o ∈ os, o.status = "OK" := by
  constructor
  · intro h o ho
    by_contra hne
    have : (o.path, o.status) ∈ allFailures os := by
      rw [allFailures_mem]
      exact ⟨ho, hne⟩
    rw [h] at this
    exact absurd this (List.not_mem_nil _)
  · intro h
    rw [List.eq_nil_iff_forall_not_mem]
    intro x hx
    have hx' : (x.1, x.2) ∈ allFailures os := hx
    rw [allFailures_mem] at hx'
    exact hx'.2 (h _ hx'.1)

theorem mainExitCode_zero_iff (os : List Outcome) :
    mainExitCode os = 0 ↔ ∀ o ∈ os, o.status = "OK" := by
  unfold mainExitCode
  by_cases h : allFailures os = []
  · rw [if_pos h]
    simp only [true_iff]
    exact (allFailures_nil_iff os).1 h
  · rw [if_neg h]
    constructor
    · intro h1
      exact absurd h1 (by omega)
    · intro hall
      exact absurd ((allFailures_nil_iff os).2 hall) h

/-! ### Claim theorems -/

theorem pendingOf_length_le (w : Worker) : (pendingOf w).length ≤ 1 := by
  unfold pendingOf
  cases w.status with
  | busy t => simp
  | killed p => cases p <;> simp

/-- C4: for every limit at least 1, input sequence and operation, whenever a
schedule of `nAtATime` completes (all lanes exit), the result array has the
input's length and `results[i] = use(inputs[i])` at every index, regardless of
the completion order; moreover a completing schedule exists. -/
theorem nAtATime_results_correct {α β : Type} (f : α → β) (inputs : List α) (n : Nat)
    (hn : 1 ≤ n) :
    (∀ trace : List Nat,
      nAllDone (nAtATimeRun f inputs (nAtATimeInit β n inputs) trace) →
        (nAtATimeRun f inputs (nAtATimeInit β n inputs) trace).results.length =
          inputs.length ∧
        (nAtATimeRun f inputs (nAtATimeInit β n inputs) trace).results =
          inputs.map fun a => some (f a)) ∧
    nAllDone (nAtATimeRun f inputs (nAtATimeInit β n inputs) (nSeqTrace n inputs)) := by
  constructor
  · intro trace hd
    have hI := nInv_run (nInv_init f inputs n) trace
    exact ⟨hI.resLen, nTerminal_results hn hI hd⟩
  · exact nSeq_allDone f inputs hn

theorem nAtATime_results_correct_witness :
    (1 ≤ 1) ∧
    ((∀ trace : List Nat,
      nAllDone (nAtATimeRun (fun x => x + 1) [3, 4] (nAtATimeInit Nat 1 [3, 4]) trace) →
        (nAtATimeRun (fun x => x + 1) [3, 4] (nAtATimeInit Nat 1 [3, 4]) trace).results.length =
          ([3, 4] : List Nat).length ∧
        (nAtATimeRun (fun x => x + 1) [3, 4] (nAtATimeInit Nat 1 [3, 4]) trace).results =
          ([3, 4] : List Nat).map fun a => some (a + 1)) ∧
    nAllDone (nAtATimeRun (fun x => x + 1) [3, 4] (nAtATimeInit Nat 1 [3, 4])
      (nSeqTrace 1 [3, 4]))) :=
  ⟨by decide, nAtATime_results_correct (fun x => x + 1) [3, 4] 1 (by decide)⟩

/-- C5: for every limit at least 1 and every schedule, at no reachable point of
`nAtATime` are more than `limit` operations in flight simultaneously. -/
theorem nAtATime_inflight_bounded {α β : Type} (f : α → β) (inputs : List α) (n : Nat)
    (hn : 1 ≤ n) :
    ∀ trace : List Nat,
      nInFlight (nAtATimeRun f inputs (nAtATimeInit β n inputs) trace) ≤ n := by
  intro trace
  have hI := nInv_run (nInv_init f inputs n) trace
  have h1 := List.countP_le_length
    (l := (nAtATimeRun f inputs (nAtATimeInit β n inputs) trace).lanes)
    (p := fun l => match l with | LaneSt.waiting _ => true | _ => false)
  unfold nInFlight
  rw [hI.laneCount] at h1
  exact h1

theorem nAtATime_inflight_bounded_witness :
    (1 ≤ 1) ∧
    (∀ trace : List Nat,
      nInFlight (nAtATimeRun (fun x => x + 1) [3, 4] (nAtATimeInit Nat 1 [3, 4]) trace) ≤ 1) :=
  ⟨by decide, nAtATime_inflight_bounded (fun x => x + 1) [3, 4] 1 (by decide)⟩

/-- C6 counterexample: `nAtATime` launches exactly `limit` lanes, not
`min(limit, inputs.length)`: with limit 3 and one input, `initArray(3, ...)`
creates 3 lanes while `min 3 1 = 1`. -/
theorem nAtATime_lanes_not_min_cex :
    (nAtATimeInit Nat 3 ([5] : List Nat)).lanes.length = 3 ∧
    ¬ (nAtATimeInit Nat 3 ([5] : List Nat)).lanes.length =
        min 3 ([5] : List Nat).length := by
  decide

/-- C6 (amended): `nAtATime` launches exactly `limit` lanes (`initArray(n, ...)`
makes one per slot; lanes beyond the input length immediately observe the
exhausted cursor and exit without claiming).  Each lane claims indices through
the shared cursor: the claim-and-increment is one atomic step, the number of
operation invocations always equals the cursor, the cursor never passes the
input length, and every in-flight claimed index lies below the cursor. -/
theorem nAtATime_lane_structure {α β : Type} (f : α → β) (inputs : List α) (n : Nat) :
    (nAtATimeInit β n inputs).lanes.length = n ∧
    ∀ trace : List Nat,
      (nAtATimeRun f inputs (nAtATimeInit β n inputs) trace).lanes.length = n ∧
      (nAtATimeRun f inputs (nAtATimeInit β n inputs) trace).invocations =
        (nAtATimeRun f inputs (nAtATimeInit β n inputs) trace).nextIndex ∧
      (nAtATimeRun f inputs (nAtATimeInit β n inputs) trace).nextIndex ≤ inputs.length ∧
      (∀ i, LaneSt.waiting i ∈ (nAtATimeRun f inputs (nAtATimeInit β n inputs) trace).lanes →
        i < (nAtATimeRun f inputs (nAtATimeInit β n inputs) trace).nextIndex) := by
  constructor
  · exact (nInv_init f inputs n).laneCount
  · intro trace
    have hI := nInv_run (nInv_init f inputs n) trace
    exact ⟨hI.laneCount, hI.invocEq, hI.cursorLe, hI.waitLt⟩

/-- C10: `nAtATime` with limit 0 and any inputs creates no lanes, so
`Promise.all([])` resolves at once: the run is frozen at the initial state,
which is already terminal, with an all-holes result array of the input's
length and zero invocations of the operation. -/
theorem nAtATime_zero_limit {α β : Type} (f : α → β) (inputs : List α) :
    (∀ trace : List Nat,
      nAtATimeRun f inputs (nAtATimeInit β 0 inputs) trace = nAtATimeInit β 0 inputs) ∧
    nAllDone (nAtATimeInit β 0 inputs) ∧
    (nAtATimeInit β 0 inputs).results.length = inputs.length ∧
    (∀ r ∈ (nAtATimeInit β 0 inputs).results, r = none) ∧
    (nAtATimeInit β 0 inputs).invocations = 0 := by
  have hlanes : (nAtATimeInit β 0 inputs).lanes = ([] : List LaneSt) := rfl
  have hstep : ∀ l, nAtATimeStep f inputs (nAtATimeInit β 0 inputs) l =
      nAtATimeInit β 0 inputs := by
    intro l
    unfold nAtATimeStep
    rw [hlanes]
    rfl
  refine ⟨?_, ?_, ?_, ?_, rfl⟩
  · intro trace
    induction trace with
    | nil => rfl
    | cons l t ih =>
      show nAtATimeRun f inputs (nAtATimeStep f inputs (nAtATimeInit β 0 inputs) l) t = _
      rw [hstep l]
      exact ih
  · intro l hl
    rw [hlanes] at hl
    exact absurd hl (List.not_mem_nil l)
  · show (List.replicate inputs.length (none : Option β)).length = inputs.length
    simp
  · intro r hr
    exact List.eq_of_mem_replicate hr

/-- C1 counterexample: with an empty task list the promise can never resolve
(the for loop spawns nothing and `resolve()` is only reachable from a worker's
message handler), even though every Task — there are none — has trivially
produced its Outcome. -/
theorem pool_empty_input_never_resolves :
    ¬ ∃ t : List PoolEv, (poolRun ([] : List Nat) 1 t).promise = PromiseSt.resolvedP := by
  rintro ⟨t, ht⟩
  rw [poolRun_degenerate (Or.inl rfl) t] at ht
  have hp : (poolInit ([] : List Nat).length 1).promise = PromiseSt.pending := by
    rw [poolInit_degenerate ([] : List Nat).length 1 (Or.inl rfl)]
  rw [hp] at ht
  exact absurd ht (by simp)

/-- C1 (amended): for every nonempty task list and concurrency bound at least
1, `runWithListeningChildProcesses` delivers exactly one Outcome per Task
through `handleOutput` and its promise resolves exactly when every Task has
produced its Outcome, absent a transport fault: whenever the promise has
resolved every task was delivered exactly once, if no fault has fired and all
tasks are delivered then the promise has resolved, and some schedule resolves
the pool. -/
theorem pool_delivers_exactly_once {α : Type} (inputs : List α) (n : Nat)
    (hlen : 1 ≤ inputs.length) (hn : 1 ≤ n) :
    (∀ t : List PoolEv,
      ((poolRun inputs n t).promise = PromiseSt.resolvedP →
        ∀ i, deliveredCount (poolRun inputs n t) i =
          if i < inputs.length then 1 else 0) ∧
      ((poolRun inputs n t).rejectedFlag = false →
        (∀ i, i < inputs.length → deliveredCount (poolRun inputs n t) i = 1) →
        (poolRun inputs n t).promise = PromiseSt.resolvedP)) ∧
    ∃ t : List PoolEv, (poolRun inputs n t).promise = PromiseSt.resolvedP := by
  constructor
  · intro t
    have hI := poolRun_inv inputs n t
    exact ⟨fun h => pool_resolved_counts hI h,
      fun hf hall => pool_allDelivered_resolved hI hn hlen hf hall⟩
  · have hI := poolInit_inv inputs.length n
    have hflag : (poolInit inputs.length n).rejectedFlag = false := by
      rw [poolInit_closed]
    have hdel : inputs.length ≤ (poolInit inputs.length n).delivered.length +
        inputs.length := by omega
    exact pool_liveness hn hlen inputs.length (poolInit inputs.length n) hI hflag hdel

theorem pool_delivers_exactly_once_witness :
    (1 ≤ ([0] : List Nat).length) ∧ (1 ≤ 1) ∧
    ((∀ t : List PoolEv,
      ((poolRun ([0] : List Nat) 1 t).promise = PromiseSt.resolvedP →
        ∀ i, deliveredCount (poolRun ([0] : List Nat) 1 t) i =
          if i < ([0] : List Nat).length then 1 else 0) ∧
      ((poolRun ([0] : List Nat) 1 t).rejectedFlag = false →
        (∀ i, i < ([0] : List Nat).length →
          deliveredCount (poolRun ([0] : List Nat) 1 t) i = 1) →
        (poolRun ([0] : List Nat) 1 t).promise = PromiseSt.resolvedP)) ∧
    ∃ t : List PoolEv, (poolRun ([0] : List Nat) 1 t).promise = PromiseSt.resolvedP) :=
  ⟨by decide, by decide, pool_delivers_exactly_once ([0] : List Nat) 1 (by decide) (by decide)⟩

/-- C2 counterexample: two distinct failures of the claim.  First, the
`rejected` flag does not guard the abort path against firing more than once:
with 3 tasks and 2 workers, an `error` on worker 0 runs `fail()` (killing both
workers and rejecting); the disconnect of the killed worker 1 then finds
`inputIndex !== inputs.length` and runs `fail()` a second time, so the ghost
`failCount` reaches 2 even though the flag was already set.  Second, Outcomes
can still be delivered after the abort fires: worker 0 was killed mid-task, so
the Outcome it had already sent is still dispatched to the (unconditional)
message handler afterwards — after `[error 0]` the delivered log is empty and
the call already rejected, yet the follow-up `msg 0` grows the log. -/
theorem pool_abort_refires_cex :
    (poolRun ([0, 1, 2] : List Nat) 2 [PoolEv.error 0, PoolEv.disconnect 1]).failCount = 2 ∧
    (poolRun ([0, 1, 2] : List Nat) 2 [PoolEv.error 0, PoolEv.disconnect 1]).rejectedFlag
      = true ∧
    (poolRun ([0, 1, 2] : List Nat) 2 [PoolEv.error 0, PoolEv.disconnect 1]).promise =
      PromiseSt.rejectedP ∧
    (poolRun ([0, 1, 2] : List Nat) 2 [PoolEv.error 0]).rejectedFlag = true ∧
    (poolRun ([0, 1, 2] : List Nat) 2 [PoolEv.error 0]).promise = PromiseSt.rejectedP ∧
    (poolRun ([0, 1, 2] : List Nat) 2 [PoolEv.error 0]).delivered = [] ∧
    (poolRun ([0, 1, 2] : List Nat) 2
        [PoolEv.error 0, PoolEv.msg 0 ⟨"a", "ERR"⟩]).delivered = [(0, ⟨"a", "ERR"⟩)] ∧
    (poolRun ([0, 1, 2] : List Nat) 2
        [PoolEv.error 0, PoolEv.msg 0 ⟨"a", "ERR"⟩]).promise = PromiseSt.rejectedP := by
  decide

/-- C2 (amended): once the abort path has run (the `rejected` flag is set), no
worker is still live, and the promise is settled and never changes again, so
the call rejects at most once — later `reject` calls are no-ops.  The flag
does not stop `fail()` from running again (re-runs are observable no-ops on
the promise), and Outcomes a worker had already sent when it was killed are
still delivered afterwards: the delivered log can keep growing after the
abort, but by at most one Outcome per worker killed mid-task (the
killed-pending workers), and the flag stays set throughout. -/
theorem pool_abort_effects {α : Type} (inputs : List α) (n : Nat) (t : List PoolEv)
    (h : (poolRun inputs n t).rejectedFlag = true) :
    (∀ w ∈ (poolRun inputs n t).workers, wBusy w = false) ∧
    (poolRun inputs n t).promise ≠ PromiseSt.pending ∧
    ∀ t' : List PoolEv,
      (poolRunFrom inputs.length (poolRun inputs n t) t').promise =
        (poolRun inputs n t).promise ∧
      (poolRunFrom inputs.length (poolRun inputs n t) t').rejectedFlag = true ∧
      (poolRunFrom inputs.length (poolRun inputs n t) t').delivered.length ≤
        (poolRun inputs n t).delivered.length +
          (poolRun inputs n t).workers.countP wKilledPending := by
  have hI := poolRun_inv inputs n t
  have hkill := hI.flagKilled h
  have hnp := hI.flagNotPending h
  refine ⟨hkill, hnp, fun t' => ?_⟩
  obtain ⟨hp, hf, hc⟩ := pool_abort_frame h hkill hnp t'
  exact ⟨hp, hf, by omega⟩

theorem pool_abort_effects_witness :
    ((poolRun ([0, 1] : List Nat) 1 [PoolEv.error 0]).rejectedFlag = true) ∧
    ((∀ w ∈ (poolRun ([0, 1] : List Nat) 1 [PoolEv.error 0]).workers, wBusy w = false) ∧
    (poolRun ([0, 1] : List Nat) 1 [PoolEv.error 0]).promise ≠ PromiseSt.pending ∧
    ∀ t' : List PoolEv,
      (poolRunFrom ([0, 1] : List Nat).length
          (poolRun ([0, 1] : List Nat) 1 [PoolEv.error 0]) t').promise =
        (poolRun ([0, 1] : List Nat) 1 [PoolEv.error 0]).promise ∧
      (poolRunFrom ([0, 1] : List Nat).length
          (poolRun ([0, 1] : List Nat) 1 [PoolEv.error 0]) t').rejectedFlag = true ∧
      (poolRunFrom ([0, 1] : List Nat).length
          (poolRun ([0, 1] : List Nat) 1 [PoolEv.error 0]) t').delivered.length ≤
        (poolRun ([0, 1] : List Nat) 1 [PoolEv.error 0]).delivered.length +
          (poolRun ([0, 1] : List Nat) 1
            [PoolEv.error 0]).workers.countP wKilledPending) :=
  ⟨by decide, pool_abort_effects ([0, 1] : List Nat) 1 [PoolEv.error 0] (by decide)⟩

/-- C3 counterexample: a worker that disconnects before being told to
terminate and before any abort is NOT always treated as a transport fault.
With 2 tasks and 2 workers the cursor is exhausted right after setup; worker 1
is still busy with task 1 (never told to terminate, no abort fired), yet its
disconnect is silently ignored: the state is unchanged, nothing is killed,
the promise stays pending forever instead of rejecting. -/
theorem pool_disconnect_ignored_cex :
    (poolRun ([0, 1] : List Nat) 2 []).workers.get? 1 =
      some ⟨WStatus.busy 1, [1], []⟩ ∧
    (poolRun ([0, 1] : List Nat) 2 []).rejectedFlag = false ∧
    poolRun ([0, 1] : List Nat) 2 [PoolEv.disconnect 1] =
      poolRun ([0, 1] : List Nat) 2 [] ∧
    (poolRun ([0, 1] : List Nat) 2 [PoolEv.disconnect 1]).promise = PromiseSt.pending ∧
    (poolRun ([0, 1] : List Nat) 2 [PoolEv.disconnect 1]).failCount = 0 := by
  decide

/-- C3 (amended): the disconnect handler's test is on the task cursor, not on
the worker's own state: a disconnect of an existing worker while the cursor
has not exhausted the input triggers the abort path (flag set, every worker
killed, promise not pending — rejected if it was pending), and a disconnect
with the cursor exhausted is ignored outright, even when that worker was never
told to terminate. -/
theorem pool_disconnect_abort {α : Type} (inputs : List α) (n : Nat) (t : List PoolEv)
    (wi : Nat) (hwi : wi < (poolRun inputs n t).workers.length) :
    ((poolRun inputs n t).inputIndex ≠ inputs.length →
      (poolRun inputs n (t ++ [PoolEv.disconnect wi])).rejectedFlag = true ∧
      (∀ w ∈ (poolRun inputs n (t ++ [PoolEv.disconnect wi])).workers, wBusy w = false) ∧
      (poolRun inputs n (t ++ [PoolEv.disconnect wi])).promise ≠ PromiseSt.pending) ∧
    ((poolRun inputs n t).inputIndex = inputs.length →
      poolRun inputs n (t ++ [PoolEv.disconnect wi]) = poolRun inputs n t) := by
  have happ : poolRun inputs n (t ++ [PoolEv.disconnect wi]) =
      poolStep inputs.length (poolRun inputs n t) (PoolEv.disconnect wi) := by
    unfold poolRun
    rw [poolRunFrom_append]
    rfl
  obtain ⟨w, hw⟩ : ∃ w, (poolRun inputs n t).workers.get? wi = some w :=
    ⟨_, List.get?_eq_get hwi⟩
  constructor
  · intro hne
    rw [happ]
    unfold poolStep
    dsimp only
    rw [hw]
    dsimp only
    rw [if_neg hne]
    exact ⟨rfl, poolFail_killed _, poolFail_not_pending _⟩
  · intro he
    rw [happ]
    unfold poolStep
    dsimp only
    rw [hw]
    dsimp only
    rw [if_pos he]

theorem pool_disconnect_abort_witness :
    (0 < (poolRun ([0, 1] : List Nat) 1 []).workers.length) ∧
    (((poolRun ([0, 1] : List Nat) 1 []).inputIndex ≠ ([0, 1] : List Nat).length →
      (poolRun ([0, 1] : List Nat) 1 [PoolEv.disconnect 0]).rejectedFlag = true ∧
      (∀ w ∈ (poolRun ([0, 1] : List Nat) 1 [PoolEv.disconnect 0]).workers,
        wBusy w = false) ∧
      (poolRun ([0, 1] : List Nat) 1 [PoolEv.disconnect 0]).promise ≠ PromiseSt.pending) ∧
    ((poolRun ([0, 1] : List Nat) 1 []).inputIndex = ([0, 1] : List Nat).length →
      poolRun ([0, 1] : List Nat) 1 [PoolEv.disconnect 0] =
        poolRun ([0, 1] : List Nat) 1 [])) := by
  refine ⟨by decide, ?_⟩
  have h := pool_disconnect_abort ([0, 1] : List Nat) 1 [] 0 (by decide)
  simpa using h

/-- C7: throughout every run of the pool, a worker holds at most one task in
flight: its log of sent task indices is always its log of delivered outcomes
followed by at most one outstanding task, so a new Task is only ever sent
after the previous Outcome reached `handleOutput`. -/
theorem pool_worker_sequential {α : Type} (inputs : List α) (n : Nat) (t : List PoolEv) :
    ∀ w ∈ (poolRun inputs n t).workers,
      ∃ rest : List Nat, w.sent = w.recvd ++ rest ∧ rest.length ≤ 1 := by
  intro w hw
  have hI := poolRun_inv inputs n t
  obtain ⟨rest, h1, h2, _⟩ := hI.sentSpec w hw
  exact ⟨rest, h1, h2⟩

theorem pool_worker_sequential_witness :
    ((⟨WStatus.busy 0, [0], []⟩ : Worker) ∈ (poolRun ([0] : List Nat) 1 []).workers) ∧
    (∃ rest : List Nat, ([0] : List Nat) = ([] : List Nat) ++ rest ∧ rest.length ≤ 1) :=
  ⟨by decide, pool_worker_sequential ([0] : List Nat) 1 []
    ⟨WStatus.busy 0, [0], []⟩ (by decide)⟩

/-- C8: a worker-reported failing Outcome is non-fatal and never steers the
pool: a run behaves (promise, flag, which tasks were delivered) exactly as the
same schedule with every payload replaced by a success payload; `main` records
each failing Outcome's path and diagnostic text verbatim in `allFailures`, and
its exit code is zero exactly when every delivered Outcome has status "OK". -/
theorem pool_task_failure_isolated {α : Type} (inputs : List α) (n : Nat) :
    (∀ t : List PoolEv,
      (poolRun inputs n (t.map eraseOutcome)).promise = (poolRun inputs n t).promise ∧
      (poolRun inputs n (t.map eraseOutcome)).rejectedFlag =
        (poolRun inputs n t).rejectedFlag ∧
      (poolRun inputs n (t.map eraseOutcome)).delivered.map Prod.fst =
        (poolRun inputs n t).delivered.map Prod.fst) ∧
    (∀ os : List Outcome,
      (mainExitCode os = 0 ↔ ∀ o ∈ os, o.status = "OK") ∧
      (∀ p st : String, (p, st) ∈ allFailures os ↔
        (⟨p, st⟩ : Outcome) ∈ os ∧ st ≠ "OK")) := by
  constructor
  · intro t
    rw [poolRun_erase]
    refine ⟨rfl, rfl, ?_⟩
    unfold eraseDelivered
    dsimp only
    rw [List.map_map]
    rfl
  · intro os
    exact ⟨mainExitCode_zero_iff os, fun p st => allFailures_mem os p st⟩

/-- C9: with an empty task list (or `nProcesses = 0`) the pool spawns no
worker processes and its promise never settles: no event can fire, so every
run is frozen at the initial state, whose promise is pending (resolution is
only reachable from a worker's message handler). -/
theorem pool_degenerate_never_settles {α : Type} (inputs : List α) (n : Nat)
    (h : inputs = [] ∨ n = 0) :
    ∀ t : List PoolEv,
      poolRun inputs n t = poolInit inputs.length n ∧
      (poolRun inputs n t).workers = [] ∧
      (poolRun inputs n t).promise = PromiseSt.pending := by
  intro t
  have hd : inputs.length = 0 ∨ n = 0 := by
    rcases h with h | h
    · left; rw [h]; rfl
    · right; exact h
  have he := poolRun_degenerate h t
  refine ⟨he, ?_, ?_⟩
  · rw [he, poolInit_degenerate _ _ hd]
  · rw [he, poolInit_degenerate _ _ hd]

theorem pool_degenerate_never_settles_witness :
    (([] : List Nat) = [] ∨ (1 : Nat) = 0) ∧
    (∀ t : List PoolEv,
      poolRun ([] : List Nat) 1 t = poolInit ([] : List Nat).length 1 ∧
      (poolRun ([] : List Nat) 1 t).workers = [] ∧
      (poolRun ([] : List Nat) 1 t).promise = PromiseSt.pending) :=
  ⟨Or.inl rfl, pool_degenerate_never_settles ([] : List Nat) 1 (Or.inl rfl)⟩
